import Mathlib

/-!
Verification of the conflict-resolution RAG application.

Python strings are modelled as `List Char` (`PyStr`), Python dicts with
string keys and string values as association lists (`Dict`), and Python
exceptions as `Except`.  External collaborators (PDF text extraction, the
embedding/vector-store/generation services) are modelled as oracle
parameters, following the spec's narrow contracts for them.  Every
definition translates the corresponding function of the source tree;
section headers name the source file.
-/

namespace RagApp

/-! ## Python string primitives -/

abbrev PyStr := List Char

/-- Characters of a Lean string literal, used to write Python string literals. -/
def pys (s : String) : PyStr := s.data

/-- Python `str.isspace` for the ASCII whitespace characters that occur in
this code base (`' '`, `'\t'`, `'\n'`, `'\r'`, vertical tab, form feed). -/
def pyIsSpace (c : Char) : Bool :=
  c == ' ' || c == '\t' || c == '\n' || c == '\r' || c == '\x0b' || c == '\x0c'

/-- Python `str.lstrip()`. -/
def pyLStrip (s : PyStr) : PyStr := s.dropWhile pyIsSpace

/-- Python `str.rstrip()`. -/
def pyRStrip (s : PyStr) : PyStr := (s.reverse.dropWhile pyIsSpace).reverse

/-- Python `str.strip()`. -/
def pyStrip (s : PyStr) : PyStr := pyRStrip (pyLStrip s)

/-- Python `s[-o:]` for a nonnegative slice bound `o` (for `o = 0` the slice
`s[-0:] = s[0:]` is the whole string). -/
def pySuffix (o : Nat) (s : PyStr) : PyStr :=
  if o = 0 then s else s.drop (s.length - o)

/-- Python `str.startswith`. -/
def pyStartsWith : PyStr → PyStr → Bool
  | [], _ => true
  | _ :: _, [] => false
  | a :: as, b :: bs => a == b && pyStartsWith as bs

/-- Python `text.split("\n\n")`: split on the two-character separator,
leftmost-first and non-overlapping.  `acc` holds the reversed characters of
the part being accumulated. -/
def splitNN : PyStr → PyStr → List PyStr
  | [], acc => [acc.reverse]
  | [c], acc => [(c :: acc).reverse]
  | c1 :: c2 :: rest, acc =>
    if c1 = '\n' ∧ c2 = '\n' then acc.reverse :: splitNN rest []
    else splitNN (c2 :: rest) (c1 :: acc)

/-- Python `s.split(sep)` for a one-character separator. -/
def splitChar (sep : Char) : PyStr → PyStr → List PyStr
  | [], acc => [acc.reverse]
  | c :: rest, acc =>
    if c = sep then acc.reverse :: splitChar sep rest []
    else splitChar sep rest (c :: acc)

/-- Python `s.split()` with no argument: split on whitespace runs, dropping
empty parts. -/
def splitWs : PyStr → PyStr → List PyStr
  | [], acc => if acc = [] then [] else [acc.reverse]
  | c :: rest, acc =>
    if pyIsSpace c then
      if acc = [] then splitWs rest [] else acc.reverse :: splitWs rest []
    else splitWs rest (c :: acc)

/-- Python `s.replace(".pdf", "")`: remove every (leftmost-first,
non-overlapping) occurrence of `.pdf`. -/
def replacePdf : PyStr → PyStr
  | '.' :: 'p' :: 'd' :: 'f' :: rest => replacePdf rest
  | c :: rest => c :: replacePdf rest
  | [] => []

/-- Python `s.replace(old, new)` for one-character `old` and `new`. -/
def replaceChar (old new : Char) (s : PyStr) : PyStr :=
  s.map fun c => if c = old then new else c

/-- Python `str.capitalize()`: first character upper-cased, the rest
lower-cased. -/
def pyCapitalize : PyStr → PyStr
  | [] => []
  | c :: rest => c.toUpper :: rest.map Char.toLower

/-- Python `str.lower()`. -/
def pyLower (s : PyStr) : PyStr := s.map Char.toLower

/-- Python `str(n)` for a nonnegative integer. -/
def natStr (n : Nat) : PyStr := Nat.toDigits 10 n

/-! ## Python dicts with string keys and string values -/

abbrev Dict := List (String × PyStr)

/-- Python `d.get(k, default)`. -/
def pyGetD (d : Dict) (k : String) (dflt : PyStr) : PyStr :=
  ((d.find? fun p => p.1 == k).map Prod.snd).getD dflt

/-- Python `d[k]` as an `Option` (`none` models a `KeyError`). -/
def pyGetOpt (d : Dict) (k : String) : Option PyStr :=
  (d.find? fun p => p.1 == k).map Prod.snd

/-- Python `k in d`. -/
def pyHasKey (d : Dict) (k : String) : Bool :=
  d.any fun p => p.1 == k

/-- Python `d[k] = v`: update the key in place if present, else append. -/
def pySet (d : Dict) (k : String) (v : PyStr) : Dict :=
  if pyHasKey d k then d.map fun p => if p.1 == k then (k, v) else p
  else d ++ [(k, v)]

/-! ## config.py -/

namespace Config

def CHUNK_SIZE : Nat := 400

def CHUNK_OVERLAP : Nat := 100

end Config

/-! ## pdf_processor.py — `PDFProcessor.chunk_text` -/

/-- A chunk record as built by `PDFProcessor.chunk_text`. -/
structure Chunk where
  id : PyStr
  text : PyStr
  metadata : Dict
  chunk_index : Nat
  deriving DecidableEq, Repr

/-- `[p.strip() for p in text.split('\n\n') if p.strip()]`. -/
def paragraphsOf (text : PyStr) : List PyStr :=
  ((splitNN text []).map pyStrip).filter (· ≠ [])

/-- The seed of a fresh buffer after a chunk is closed:
`current_chunk[-self.chunk_overlap:] if len(current_chunk) > self.chunk_overlap
else current_chunk`. -/
def overlapOf (ov : Nat) (buf : PyStr) : PyStr :=
  if buf.length > ov then pySuffix ov buf else buf

/-- The paragraph loop of `PDFProcessor.chunk_text` (source lines 92–117):
`buf` is `current_chunk`, `cid` is `chunk_id`, `fn` is `metadata['filename']`. -/
def chunkLoop (size ov : Nat) (fn : PyStr) (md : Dict) :
    List PyStr → PyStr → Nat → List Chunk
  | [], buf, cid =>
    if pyStrip buf ≠ [] then
      [{ id := fn ++ pys "_chunk_" ++ natStr cid, text := pyStrip buf,
         metadata := md, chunk_index := cid }]
    else []
  | p :: ps, buf, cid =>
    if buf.length + p.length > size ∧ buf ≠ [] then
      { id := fn ++ pys "_chunk_" ++ natStr cid, text := pyStrip buf,
        metadata := md, chunk_index := cid } ::
        chunkLoop size ov fn md ps (overlapOf ov buf ++ pys "\n\n" ++ p) (cid + 1)
    else
      chunkLoop size ov fn md ps (if buf = [] then p else buf ++ pys "\n\n" ++ p) cid

/-- The same loop, recording only the raw (un-stripped) closed buffers — the
"pre-overlap" buffer of each chunk.  The emitted chunk texts are exactly the
`pyStrip`s of these buffers. -/
def chunkBuffers (size ov : Nat) : List PyStr → PyStr → List PyStr
  | [], buf => if pyStrip buf ≠ [] then [buf] else []
  | p :: ps, buf =>
    if buf.length + p.length > size ∧ buf ≠ [] then
      buf :: chunkBuffers size ov ps (overlapOf ov buf ++ pys "\n\n" ++ p)
    else
      chunkBuffers size ov ps (if buf = [] then p else buf ++ pys "\n\n" ++ p)

/-- `PDFProcessor.chunk_text`.  In the source, `metadata['filename']` is read
when the first chunk record is built; since a text with nonempty `strip()`
always yields at least one chunk, the `KeyError` is raised exactly when the
text is non-blank and `filename` is absent, which is how it is modelled here. -/
def chunk_text (size ov : Nat) (text : PyStr) (metadata : Dict) :
    Except String (List Chunk) :=
  if pyStrip text = [] then .ok []
  else
    match pyGetOpt metadata "filename" with
    | none => .error "KeyError: filename"
    | some fn => .ok (chunkLoop size ov fn metadata (paragraphsOf text) [] 0)

/-! ## pdf_processor.py — `PDFProcessor.extract_metadata_from_filename` -/

/-- A regex `\w` word character: `[A-Za-z0-9_]`. -/
def pyIsWordChar (c : Char) : Bool :=
  ('a' ≤ c && c ≤ 'z') || ('A' ≤ c && c ≤ 'Z') || ('0' ≤ c && c ≤ '9') || c == '_'

def isDigitChar (c : Char) : Bool := '0' ≤ c && c ≤ '9'

/-- The character of `s` at index `i`, if any. -/
def charAt? (s : PyStr) (i : Nat) : Option Char := (s.drop i).head?

/-- Whether a `\b` word boundary precedes index `i`. -/
def boundaryLeft (s : PyStr) (i : Nat) : Bool :=
  match i with
  | 0 => true
  | j + 1 =>
    match charAt? s j with
    | some c => !pyIsWordChar c
    | none => true

/-- Whether a `\b` word boundary follows index `i` (exclusive end). -/
def boundaryRight (s : PyStr) (i : Nat) : Bool :=
  match charAt? s i with
  | some c => !pyIsWordChar c
  | none => true

/-- Whether `\b(19|20)\d{2}\b` matches `name` starting at index `i`. -/
def yearMatchAt (name : PyStr) (i : Nat) : Bool :=
  match name.drop i with
  | c1 :: c2 :: c3 :: c4 :: _ =>
    ((c1 == '1' && c2 == '9') || (c1 == '2' && c2 == '0')) &&
      isDigitChar c3 && isDigitChar c4 &&
      boundaryLeft name i && boundaryRight name (i + 4)
  | _ => false

/-- `re.search(r'\b(19|20)\d{2}\b', name)`: the leftmost match, if any. -/
def yearSearch (name : PyStr) : Option PyStr :=
  (List.range name.length).findSome? fun i =>
    if yearMatchAt name i then some ((name.drop i).take 4) else none

/-- `text.split("\n\n")`. -/
def pySplitNN (s : PyStr) : List PyStr := splitNN s []

/-- `s.split(sep)` for a one-character separator. -/
def pySplitChar (sep : Char) (s : PyStr) : List PyStr := splitChar sep s []

/-- `s.split()`. -/
def pySplitWs (s : PyStr) : List PyStr := splitWs s []

/-- `PDFProcessor.extract_metadata_from_filename` (source lines 41–78). -/
def extract_metadata_from_filename (filename : PyStr) : Dict :=
  let name := replacePdf filename
  let metadata : Dict :=
    [("filename", filename), ("title", name), ("author", pys "Unknown"),
     ("year", pys "Unknown"), ("source_type", pys "document")]
  -- Pattern: Author_Title.pdf
  let metadata :=
    if '_' ∈ name then
      let parts := pySplitChar '_' name
      if parts.length ≥ 2 then
        let potential_author := parts.getD 0 []
        if (pySplitWs potential_author).length ≤ 3 then
          let md := pySet metadata "author" (replaceChar '_' ' ' potential_author)
          pySet md "title" (replaceChar '_' ' ' (List.intercalate (pys "_") parts.tail))
        else metadata
      else metadata
    else metadata
  -- Pattern: Author, Title.pdf
  let metadata :=
    if ',' ∈ name ∧ ¬('_' ∈ name) then
      let parts := pySplitChar ',' name
      if parts.length ≥ 2 then
        let md := pySet metadata "author" (pyStrip (parts.getD 0 []))
        pySet md "title" (pyStrip (parts.getD 1 []))
      else metadata
    else metadata
  -- Look for year in filename
  match yearSearch name with
  | some y => pySet metadata "year" y
  | none => metadata

/-! ## citation_generator.py — `CitationGenerator` -/

/-- `CitationGenerator.clean_author_name` (source lines 15–29). -/
def clean_author_name (author : PyStr) : PyStr :=
  if author = [] ∨ author = pys "Unknown" then pys "Unknown Author"
  else
    let author := List.intercalate (pys " ") (pySplitWs author)
    if ',' ∈ author then
      match (pySplitChar ',' author).map pyStrip with
      | a :: rest =>
        if rest.length + 1 > 1 then a ++ pys ", " ++ List.intercalate (pys ", ") rest
        else author
      | [] => author
    else author

/-- The APA minor words of `CitationGenerator.title_case`. -/
def lowercase_words : List PyStr :=
  [pys "a", pys "an", pys "and", pys "as", pys "at", pys "but", pys "by",
   pys "for", pys "if", pys "in", pys "nor", pys "of", pys "on", pys "or",
   pys "so", pys "the", pys "to", pys "up", pys "yet"]

/-- `CitationGenerator.title_case` (source lines 50–69). -/
def title_case (text : PyStr) : PyStr :=
  let words := pySplitWs text
  let result := words.enum.map fun iw =>
    if iw.1 = 0 ∨ iw.1 = words.length - 1 then pyCapitalize iw.2
    else if pyLower iw.2 ∈ lowercase_words then pyLower iw.2
    else pyCapitalize iw.2
  List.intercalate (pys " ") result

/-- `CitationGenerator.clean_title` (source lines 31–48). -/
def clean_title (title : PyStr) : PyStr :=
  if title = [] then pys "Untitled Document"
  else
    let title := replacePdf title
    let title := replaceChar '_' ' ' title
    let title := List.intercalate (pys " ") (pySplitWs title)
    title_case title

/-- `CitationGenerator.generate_reference_citation` (source lines 71–85). -/
def generate_reference_citation (metadata : Dict) : PyStr :=
  let author := clean_author_name (pyGetD metadata "author" (pys "Unknown"))
  let title := clean_title (pyGetD metadata "title" (pys "Untitled"))
  let year := pyGetD metadata "year" (pys "n.d.")
  let filename := pyGetD metadata "filename" []
  let citation := author ++ pys " (" ++ year ++ pys "). " ++ title ++ pys "."
  if pyHasKey metadata "file_path" then
    citation ++ pys " Retrieved from " ++ filename
  else citation

/-- `CitationGenerator.generate_in_text_citation` (source lines 87–93). -/
def generate_in_text_citation (metadata : Dict) : PyStr :=
  let author := clean_author_name (pyGetD metadata "author" (pys "Unknown"))
  let year := pyGetD metadata "year" (pys "n.d.")
  pys "(" ++ author ++ pys ", " ++ year ++ pys ")"

/-- The `unique_citations` insertion-ordered dict built by the loop of
`format_citations_for_response`: one `(filename, citation)` pair per
first-seen filename. -/
def uniqueCitations (used_sources : List Dict) : List (PyStr × PyStr) :=
  used_sources.foldl
    (fun acc source =>
      let filename := pyGetD source "filename" (pys "Unknown")
      if (acc.map Prod.fst).contains filename then acc
      else acc ++ [(filename, generate_reference_citation source)])
    []

/-- `CitationGenerator.format_citations_for_response` (source lines 114–133). -/
def format_citations_for_response (used_sources : List Dict) : PyStr :=
  if used_sources = [] then []
  else
    pys "\n\n**Použité zdroje:**\n" ++
      ((uniqueCitations used_sources).enum.map fun ic =>
        natStr (ic.1 + 1) ++ pys ". " ++ ic.2.2 ++ pys "\n").flatten

/-- Modelled from the spec's words, for refinement comparison with
`format_citations_for_response`: deduplicate the sources by `filename`
keeping the first occurrence in first-seen order, render each survivor's
reference citation as a numbered line, and place the list under the fixed
header; an empty input yields the empty string. -/
def specDedupByFilename (sources : List Dict) : List Dict :=
  sources.foldl
    (fun acc s =>
      if (acc.map fun t => pyGetD t "filename" (pys "Unknown")).contains
          (pyGetD s "filename" (pys "Unknown")) then acc
      else acc ++ [s])
    []

/-- Modelled from the spec's words (see `specDedupByFilename`). -/
def spec_format_citations (sources : List Dict) : PyStr :=
  if sources = [] then []
  else
    pys "\n\n**Použité zdroje:**\n" ++
      ((specDedupByFilename sources).enum.map fun is =>
        natStr (is.1 + 1) ++ pys ". " ++ generate_reference_citation is.2 ++ pys "\n").flatten

/-- `[pdf_files[i:i + batch_size] for i in range(0, len(pdf_files), batch_size)]`,
written with a fuel argument (one slice consumes at least one element when
`batch_size ≥ 1`, so `l.length` fuel is enough; Python raises `ValueError`
on a zero step, so `batch_size = 0` is out of scope). -/
def pyBatchesF {α : Type} (bs : Nat) : Nat → List α → List (List α)
  | _, [] => []
  | 0, _ :: _ => []
  | fuel + 1, x :: xs => (x :: xs).take bs :: pyBatchesF bs fuel ((x :: xs).drop bs)

/-- The batch partition of `index_all_documents` (source line 138). -/
def pyBatches {α : Type} (bs : Nat) (l : List α) : List (List α) :=
  pyBatchesF bs l.length l

/-! ## batch_indexer.py — `BatchIndexer`

The PDF extraction step `self.pdf_processor.extract_text_and_metadata(pdf_file)`
reads the filesystem and PyMuPDF, so it is an oracle: for each path it either
raises or yields a text and a metadata dict.  `add_documents_to_vectorstore`
catches every exception internally and returns a `bool` that `process_batch`
ignores, so the vector store needs no modelling.  `time.sleep` between batches
only delays and is omitted. -/

inductive ExtractOutcome where
  | raises (msg : String)
  | ok (text : PyStr) (md : Dict)

/-- A metadata value of a LangChain `Document`: string or int. -/
inductive MVal where
  | s (v : PyStr)
  | n (v : Nat)
  deriving DecidableEq, Repr

/-- A LangChain `Document` as built in `process_batch`. -/
structure LCDocument where
  page_content : PyStr
  metadata : List (String × MVal)
  deriving DecidableEq, Repr

/-- The `Document(...)` construction of `process_batch` (source lines 80–90);
a missing metadata key is a `KeyError`. -/
def convertChunk (c : Chunk) : Except String LCDocument :=
  match pyGetOpt c.metadata "filename", pyGetOpt c.metadata "author",
      pyGetOpt c.metadata "title", pyGetOpt c.metadata "year" with
  | some fn, some au, some ti, some yr =>
    .ok { page_content := c.text,
          metadata := [("id", .s c.id), ("filename", .s fn), ("author", .s au),
                       ("title", .s ti), ("year", .s yr),
                       ("chunk_index", .n c.chunk_index)] }
  | _, _, _, _ => .error "KeyError"

/-- The documents list built chunk by chunk; the first missing key raises. -/
def convertChunks (cs : List Chunk) : Except String (List LCDocument) :=
  cs.mapM convertChunk

/-- Per-batch counters of `process_batch`. -/
structure BatchResults where
  processed : Nat
  failed : Nat
  total_chunks : Nat
  errors : List String
  deriving Repr

/-- The `processed_files` / `failed_files` instance state of `BatchIndexer`. -/
structure IndexerState where
  processed_files : List String
  failed_files : List String
  deriving Repr

/-- One iteration of the `for pdf_file in pdf_files` loop of `process_batch`
(source lines 58–103); every failure inside the loop body is caught by the
per-file `except` and counted as failed. -/
def processFile (size ov : Nat) (env : String → ExtractOutcome)
    (acc : BatchResults × IndexerState) (path : String) :
    BatchResults × IndexerState :=
  let (br, st) := acc
  match env path with
  | .raises msg =>
    ({ br with failed := br.failed + 1,
               errors := br.errors ++ ["Chyba při zpracování " ++ path ++ ": " ++ msg] },
     { st with failed_files := st.failed_files ++ [path] })
  | .ok text md =>
    if pyStrip text = [] then
      ({ br with failed := br.failed + 1 },
       { st with failed_files := st.failed_files ++ [path] })
    else
      match chunk_text size ov text md with
      | .error e =>
        ({ br with failed := br.failed + 1,
                   errors := br.errors ++ ["Chyba při zpracování " ++ path ++ ": " ++ e] },
         { st with failed_files := st.failed_files ++ [path] })
      | .ok chunks =>
        if chunks ≠ [] then
          match convertChunks chunks with
          | .error e =>
            ({ br with failed := br.failed + 1,
                       errors := br.errors ++ ["Chyba při zpracování " ++ path ++ ": " ++ e] },
             { st with failed_files := st.failed_files ++ [path] })
          | .ok _docs =>
            -- add_documents_to_vectorstore catches internally; its bool is ignored
            ({ br with processed := br.processed + 1,
                       total_chunks := br.total_chunks + chunks.length },
             { st with processed_files := st.processed_files ++ [path] })
        else
          -- `if chunks:` false: the document is counted neither way
          (br, st)

/-- `BatchIndexer.process_batch` (source lines 39–105). -/
def process_batch (size ov : Nat) (env : String → ExtractOutcome)
    (st : IndexerState) (pdf_files : List String) : BatchResults × IndexerState :=
  pdf_files.foldl (processFile size ov env)
    ({ processed := 0, failed := 0, total_chunks := 0, errors := [] }, st)

/-- `BatchIndexer.get_pdf_files`: `none` models a missing sources directory,
in which case a `FileNotFoundError` is raised. -/
def get_pdf_files (dir : Option (List String)) : Except String (List String) :=
  match dir with
  | none => .error "Složka neexistuje"
  | some files => .ok files

/-- The final report of `BatchIndexer.index_all_documents`; the two early
returns carry an `error` entry, the final return does not. -/
structure Report where
  success : Bool
  error : Option String
  total_processed : Nat
  total_failed : Nat
  total_chunks : Nat
  errors : List String
  processed_files : List String
  failed_files : List String
  deriving Repr

/-- One iteration of the `for i, batch in enumerate(batches, 1)` loop of
`index_all_documents` (source lines 150–172): run `process_batch` and add its
counters into the running totals.  `time.sleep` between batches only delays
and is omitted. -/
def batchStep (size ov : Nat) (env : String → ExtractOutcome)
    (acc : BatchResults × IndexerState) (batch : List String) :
    BatchResults × IndexerState :=
  let step := process_batch size ov env acc.2 batch
  ({ processed := acc.1.processed + step.1.processed,
     failed := acc.1.failed + step.1.failed,
     total_chunks := acc.1.total_chunks + step.1.total_chunks,
     errors := acc.1.errors ++ step.1.errors }, step.2)

/-- `BatchIndexer.index_all_documents` (source lines 107–197).  The
`except` around `process_batch` in the source is dead in this model because
`process_batch` catches every per-file failure itself and cannot raise. -/
def index_all_documents (size ov batch_size : Nat) (dir : Option (List String))
    (env : String → ExtractOutcome) : Report :=
  match get_pdf_files dir with
  | .error e =>
    { success := false, error := some e, total_processed := 0, total_failed := 0,
      total_chunks := 0, errors := [], processed_files := [], failed_files := [] }
  | .ok pdf_files =>
    if pdf_files = [] then
      { success := false, error := some "Nebyly nalezeny žádné PDF soubory",
        total_processed := 0, total_failed := 0, total_chunks := 0, errors := [],
        processed_files := [], failed_files := [] }
    else
      let batches := pyBatches batch_size pdf_files
      let folded := batches.foldl (batchStep size ov env)
        ({ processed := 0, failed := 0, total_chunks := 0, errors := [] },
         { processed_files := [], failed_files := [] })
      { success := decide (0 < folded.1.processed), error := none,
        total_processed := folded.1.processed, total_failed := folded.1.failed,
        total_chunks := folded.1.total_chunks, errors := folded.1.errors,
        processed_files := folded.2.processed_files,
        failed_files := folded.2.failed_files }

/-! ## rag_engine.py — `RAGEngine.generate_response`

The vector store, the OpenAI completion call and (for the fault model of the
inner `try` around citation formatting) the citation subsystem are external
collaborators, passed as oracle arguments: `searchOutcome` is the result of
`self.vector_db.similarity_search` (which can raise), `completionF` the
generation service applied to the built context and the query, and `citeF`
the citation formatter applied to `used_sources` (instantiating `citeF` with
`fun s => .ok (format_citations_for_response s)` recovers the pure in-repo
formatter, which never raises). -/

/-- A retrieved LangChain document as consumed by `generate_response`. -/
structure Doc where
  page_content : PyStr
  metadata : Dict
  deriving DecidableEq, Repr

/-- A value of the result dict of `generate_response`: a string, the list of
source metadata mappings, or an int. -/
inductive RVal where
  | s (v : PyStr)
  | srcs (v : List Dict)
  | n (v : Nat)
  deriving DecidableEq, Repr

/-- Lookup in the result dict of `generate_response`. -/
def rGet (r : List (String × RVal)) (k : String) : Option RVal :=
  (r.find? fun p => p.1 == k).map Prod.snd

/-- `RAGEngine.search_relevant_documents` (source lines 130–141): a raised
search error is caught and becomes the empty result list. -/
def search_relevant_documents (searchOutcome : Except String (List Doc)) :
    List Doc :=
  match searchOutcome with
  | .ok results => results
  | .error _ => []

/-- The context string built from the retrieved documents
(source lines 157–169). -/
def contextOf (relevant_docs : List Doc) : PyStr :=
  List.intercalate (pys "\n\n---\n\n")
    (relevant_docs.map fun doc =>
      pys "Zdroj: " ++ pyGetD doc.metadata "title" (pys "Neznámý") ++
        pys " (" ++ pyGetD doc.metadata "author" (pys "Neznámý autor") ++
        pys ")\n" ++ doc.page_content)

/-- `RAGEngine.generate_response` (source lines 143–211).  The outer `try`
catches a completion failure and substitutes the error-message response; the
inner `try` catches a citation-formatting failure and substitutes the empty
citations string. -/
def generate_response (query : PyStr) (searchOutcome : Except String (List Doc))
    (completionF : PyStr → PyStr → Except String PyStr)
    (citeF : List Dict → Except String PyStr) : List (String × RVal) :=
  let relevant_docs := search_relevant_documents searchOutcome
  if relevant_docs = [] then
    [("response", .s (pys "Omlouvám se, ale nenašel jsem relevantní informace v dostupných dokumentech o transformativním přístupu ke konfliktům.")),
     ("sources", .srcs []),
     ("citations", .s [])]
  else
    let used_sources := relevant_docs.map Doc.metadata
    let context := contextOf relevant_docs
    match completionF context query with
    | .error e =>
      [("response", .s (pys "Chyba při generování odpovědi: " ++ pys e)),
       ("sources", .srcs []),
       ("citations", .s [])]
    | .ok response_text =>
      let citations :=
        match citeF used_sources with
        | .ok c => c
        | .error _ => []
      [("response", .s response_text),
       ("sources", .srcs used_sources),
       ("citations", .s citations),
       ("num_sources", .n used_sources.length)]

/-! ## A store model for the dict copies of `chunk_text`

`metadata.copy()` in the source allocates a fresh dict per emitted chunk.  To
express that, dicts live in a store (`List Dict`, addressed by index), chunks
carry the address of their metadata dict, and each emission appends a copy of
the input dict to the store.  This instruments the very same loop as
`chunkLoop`. -/

abbrev Store := List Dict

/-- Read the dict at address `r`. -/
def storeGet (st : Store) (r : Nat) : Dict := st.getD r []

/-- Mutate the dict at address `r` by a Python item assignment `d[k] = v`. -/
def storeSet (st : Store) (r : Nat) (k : String) (v : PyStr) : Store :=
  st.set r (pySet (storeGet st r) k v)

/-- A chunk whose `metadata` is an address into the store. -/
structure ChunkRef where
  id : PyStr
  text : PyStr
  mdRef : Nat
  chunk_index : Nat
  deriving DecidableEq, Repr

/-- The paragraph loop of `chunk_text`, instrumented with the store:
`metadata.copy()` appends a copy of the dict at `mdRef` and the new chunk
points at the fresh address. -/
def chunkLoopSt (size ov : Nat) (fn : PyStr) (mdRef : Nat) :
    List PyStr → PyStr → Nat → Store → Store × List ChunkRef
  | [], buf, cid, st =>
    if pyStrip buf ≠ [] then
      (st ++ [storeGet st mdRef],
       [{ id := fn ++ pys "_chunk_" ++ natStr cid, text := pyStrip buf,
          mdRef := st.length, chunk_index := cid }])
    else (st, [])
  | p :: ps, buf, cid, st =>
    if buf.length + p.length > size ∧ buf ≠ [] then
      let st' := st ++ [storeGet st mdRef]
      let c : ChunkRef :=
        { id := fn ++ pys "_chunk_" ++ natStr cid, text := pyStrip buf,
          mdRef := st.length, chunk_index := cid }
      let rec_result := chunkLoopSt size ov fn mdRef ps
        (overlapOf ov buf ++ pys "\n\n" ++ p) (cid + 1) st'
      (rec_result.1, c :: rec_result.2)
    else
      chunkLoopSt size ov fn mdRef ps
        (if buf = [] then p else buf ++ pys "\n\n" ++ p) cid st

/-- `chunk_text` over the store: the input metadata dict lives at `mdRef`. -/
def chunk_text_st (size ov : Nat) (text : PyStr) (mdRef : Nat) (st : Store) :
    Except String (Store × List ChunkRef) :=
  if pyStrip text = [] then .ok (st, [])
  else
    match pyGetOpt (storeGet st mdRef) "filename" with
    | none => .error "KeyError: filename"
    | some fn => .ok (chunkLoopSt size ov fn mdRef (paragraphsOf text) [] 0 st)

/-- The text of the C2 counterexample: paragraphs of 398, 2 and 1
characters, none exceeding the configured chunk size of 400. -/
def c2text : PyStr := List.replicate 398 'a' ++ pys "\n\nbb\n\nc"

/-- The association `filename ↦ citation` recorded per kept source. -/
def citeEntry (s : Dict) : PyStr × PyStr :=
  (pyGetD s "filename" (pys "Unknown"), generate_reference_citation s)

/-! ## Helper lemmas: strip and whitespace -/

/-- A string whose last character exists and is not whitespace. -/
def EndsNW (s : PyStr) : Prop :=
  ∃ c, s.getLast? = some c ∧ pyIsSpace c = false

theorem endsNW_ne_nil {s : PyStr} (h : EndsNW s) : s ≠ [] := by
  obtain ⟨c, hc, -⟩ := h
  intro hs
  subst hs
  simp at hc

theorem mem_of_getLast? {s : PyStr} {c : Char} (h : s.getLast? = some c) :
    c ∈ s := by
  obtain ⟨hne, rfl⟩ := List.mem_getLast?_eq_getLast (by rw [h]; rfl)
  exact List.getLast_mem hne

theorem head_dropWhile_false (p : Char → Bool) :
    ∀ (l : PyStr) {c t}, l.dropWhile p = c :: t → p c = false := by
  intro l
  induction l with
  | nil => intro c t h; simp at h
  | cons a l ih =>
    intro c t h
    rw [List.dropWhile_cons] at h
    by_cases hp : p a = true
    · rw [if_pos hp] at h; exact ih h
    · rw [if_neg hp] at h
      obtain ⟨rfl, -⟩ := List.cons.inj h
      exact Bool.eq_false_iff.mpr hp

theorem pyLStrip_eq_nil_iff {s : PyStr} :
    pyLStrip s = [] ↔ ∀ c ∈ s, pyIsSpace c = true :=
  List.dropWhile_eq_nil_iff

theorem pyStrip_eq_nil_iff {s : PyStr} :
    pyStrip s = [] ↔ ∀ c ∈ s, pyIsSpace c = true := by
  unfold pyStrip pyRStrip
  constructor
  · intro h c hc
    rcases List.mem_append.mp ((List.takeWhile_append_dropWhile pyIsSpace s) ▸ hc) with
      h1 | h2
    · exact List.mem_takeWhile_imp h1
    · have h3 : (pyLStrip s).reverse.dropWhile pyIsSpace = [] :=
        List.reverse_eq_nil_iff.mp h
      have h4 : c ∈ (pyLStrip s).reverse := List.mem_reverse.mpr h2
      exact List.dropWhile_eq_nil_iff.mp h3 c h4
  · intro h
    have h2 : pyLStrip s = [] := pyLStrip_eq_nil_iff.mpr h
    rw [h2]
    rfl

theorem endsNW_strip_ne_nil {s : PyStr} (h : EndsNW s) : pyStrip s ≠ [] := by
  obtain ⟨c, hc, hcs⟩ := h
  intro hnil
  rw [pyStrip_eq_nil_iff.mp hnil c (mem_of_getLast? hc)] at hcs
  exact Bool.true_eq_false.mp hcs

theorem pyRStrip_of_endsNW {s : PyStr} (h : EndsNW s) : pyRStrip s = s := by
  obtain ⟨c, hc, hcs⟩ := h
  unfold pyRStrip
  rcases hrev : s.reverse with _ | ⟨a, t⟩
  · rw [List.reverse_eq_nil_iff.mp hrev]
    rfl
  · have ha : a = c := by
      have := List.head?_reverse s
      rw [hrev] at this
      simp only [List.head?_cons] at this
      rw [hc] at this
      exact Option.some.inj this
    subst ha
    rw [List.dropWhile_cons, if_neg (by rw [hcs]; exact fun hh => nomatch hh)]
    rw [← hrev, List.reverse_reverse]

theorem endsNW_append {x p : PyStr} (h : EndsNW p) : EndsNW (x ++ p) := by
  obtain ⟨c, hc, hcs⟩ := h
  refine ⟨c, ?_, hcs⟩
  rw [List.getLast?_append, hc]
  rfl

theorem endsNW_of_suffix {s t : PyStr} (h : EndsNW s) (ht : t ≠ [])
    (hsuf : ∃ pre, pre ++ t = s) : EndsNW t := by
  obtain ⟨c, hc, hcs⟩ := h
  obtain ⟨pre, rfl⟩ := hsuf
  refine ⟨c, ?_, hcs⟩
  rw [List.getLast?_append] at hc
  rcases hlast : t.getLast? with _ | a
  · rcases t with _ | ⟨b, u⟩
    · exact absurd rfl ht
    · simp at hlast
  · rw [hlast] at hc
    exact hc

theorem endsNW_pyLStrip {s : PyStr} (h : EndsNW s) :
    pyLStrip s ≠ [] ∧ EndsNW (pyLStrip s) := by
  have hne : pyLStrip s ≠ [] := by
    intro hnil
    obtain ⟨c, hc, hcs⟩ := h
    rw [pyLStrip_eq_nil_iff.mp hnil c (mem_of_getLast? hc)] at hcs
    exact Bool.true_eq_false.mp hcs
  refine ⟨hne, ?_⟩
  exact endsNW_of_suffix h hne
    ⟨s.takeWhile pyIsSpace, List.takeWhile_append_dropWhile pyIsSpace s⟩

theorem pyStrip_of_endsNW {s : PyStr} (h : EndsNW s) : pyStrip s = pyLStrip s := by
  unfold pyStrip
  exact pyRStrip_of_endsNW (endsNW_pyLStrip h).2

theorem pyLStrip_append_of_ne_nil {a b : PyStr} (h : pyLStrip a ≠ []) :
    pyLStrip (a ++ b) = pyLStrip a ++ b := by
  induction a with
  | nil => exact absurd rfl h
  | cons c t ih =>
    unfold pyLStrip at *
    rw [List.cons_append, List.dropWhile_cons, List.dropWhile_cons]
    by_cases hc : pyIsSpace c = true
    · simp only [if_pos hc]
      rw [List.dropWhile_cons, if_pos hc] at h
      exact ih h
    · simp only [if_neg hc, List.cons_append]

theorem endsNW_of_strip_ne_nil {q : PyStr} (h : pyStrip q ≠ []) :
    EndsNW (pyStrip q) := by
  unfold pyStrip pyRStrip at *
  rcases hd : (pyLStrip q).reverse.dropWhile pyIsSpace with _ | ⟨c, t⟩
  · rw [hd] at h
    exact absurd rfl h
  · refine ⟨c, ?_, head_dropWhile_false pyIsSpace _ hd⟩
    rw [List.getLast?_reverse]
    rfl

/-! ## Helper lemmas: paragraph splitting -/

theorem mem_splitNN (c : Char) (hc : c ≠ '\n') :
    ∀ s acc : PyStr, (c ∈ s ∨ c ∈ acc) → ∃ p ∈ splitNN s acc, c ∈ p := by
  intro s acc
  induction s, acc using splitNN.induct with
  | case1 acc =>
    intro h
    simp only [splitNN]
    rcases h with h | h
    · exact absurd h (List.not_mem_nil c)
    · exact ⟨acc.reverse, List.mem_cons_self _ _, List.mem_reverse.mpr h⟩
  | case2 d acc =>
    intro h
    simp only [splitNN]
    refine ⟨(d :: acc).reverse, List.mem_cons_self _ _, List.mem_reverse.mpr ?_⟩
    rcases h with h | h
    · rw [List.mem_singleton] at h
      exact h ▸ List.mem_cons_self _ _
    · exact List.mem_cons_of_mem _ h
  | case3 c1 c2 rest acc hsep ih =>
    intro h
    simp only [splitNN, if_pos hsep]
    obtain ⟨h1, h2⟩ := hsep
    subst h1; subst h2
    rcases h with h | h
    · rw [List.mem_cons, List.mem_cons] at h
      rcases h with h | h | h
      · exact absurd h hc
      · exact absurd h hc
      · obtain ⟨p, hp, hcp⟩ := ih (Or.inl h)
        exact ⟨p, List.mem_cons_of_mem _ hp, hcp⟩
    · exact ⟨acc.reverse, List.mem_cons_self _ _, List.mem_reverse.mpr h⟩
  | case4 c1 c2 rest acc hsep ih =>
    intro h
    simp only [splitNN, if_neg hsep]
    apply ih
    rcases h with h | h
    · rw [List.mem_cons] at h
      rcases h with h | h
      · exact Or.inr (h ▸ List.mem_cons_self _ _)
      · exact Or.inl h
    · exact Or.inr (List.mem_cons_of_mem _ h)

theorem paragraphsOf_mem {text p : PyStr} (h : p ∈ paragraphsOf text) :
    p ≠ [] ∧ EndsNW p := by
  unfold paragraphsOf at h
  obtain ⟨hmem, hne⟩ := List.mem_filter.mp h
  have hne' : p ≠ [] := by simpa using hne
  obtain ⟨q, -, rfl⟩ := List.mem_map.mp hmem
  exact ⟨hne', endsNW_of_strip_ne_nil hne'⟩

theorem splitNN_chars :
    ∀ s acc : PyStr, ∀ p ∈ splitNN s acc, ∀ c ∈ p, c ∈ s ∨ c ∈ acc := by
  intro s acc
  induction s, acc using splitNN.induct with
  | case1 acc =>
    intro p hp c hc
    simp only [splitNN, List.mem_singleton] at hp
    subst hp
    exact Or.inr (List.mem_reverse.mp hc)
  | case2 d acc =>
    intro p hp c hc
    simp only [splitNN, List.mem_singleton] at hp
    subst hp
    rcases List.mem_cons.mp (List.mem_reverse.mp hc) with h | h
    · exact Or.inl (h ▸ List.mem_cons_self _ _)
    · exact Or.inr h
  | case3 c1 c2 rest acc hsep ih =>
    intro p hp c hc
    simp only [splitNN, if_pos hsep] at hp
    rcases List.mem_cons.mp hp with rfl | hp
    · exact Or.inr (List.mem_reverse.mp hc)
    · rcases ih p hp c hc with h | h
      · exact Or.inl (List.mem_cons_of_mem _ (List.mem_cons_of_mem _ h))
      · exact absurd h (List.not_mem_nil c)
  | case4 c1 c2 rest acc hsep ih =>
    intro p hp c hc
    simp only [splitNN, if_neg hsep] at hp
    rcases ih p hp c hc with h | h
    · exact Or.inl (List.mem_cons_of_mem _ h)
    · rcases List.mem_cons.mp h with h | h
      · exact Or.inl (h ▸ List.mem_cons_self _ _)
      · exact Or.inr h

theorem paragraphsOf_nil_of_strip_nil {text : PyStr} (h : pyStrip text = []) :
    paragraphsOf text = [] := by
  rw [List.eq_nil_iff_forall_not_mem]
  intro p hp
  obtain ⟨hmem, hne⟩ := List.mem_filter.mp hp
  have hne' : p ≠ [] := by simpa using hne
  obtain ⟨q, hq, rfl⟩ := List.mem_map.mp hmem
  have hall := pyStrip_eq_nil_iff.mp h
  refine hne' (pyStrip_eq_nil_iff.mpr fun c hc => ?_)
  rcases splitNN_chars text [] q hq c hc with hct | hca
  · exact hall c hct
  · exact absurd hca (List.not_mem_nil c)

theorem paragraphsOf_ne_nil {text : PyStr} (h : pyStrip text ≠ []) :
    paragraphsOf text ≠ [] := by
  have hex : ∃ c ∈ text, pyIsSpace c = false := by
    by_contra hall
    push_neg at hall
    exact h (pyStrip_eq_nil_iff.mpr fun c hc => by
      have := hall c hc
      rcases hb : pyIsSpace c with _ | _
      · exact absurd hb this
      · rfl)
  obtain ⟨c, hcmem, hcs⟩ := hex
  have hc : c ≠ '\n' := by
    intro hh
    subst hh
    simp [pyIsSpace] at hcs
  obtain ⟨p, hp, hcp⟩ := mem_splitNN c hc text [] (Or.inl hcmem)
  have hps : pyStrip p ≠ [] := by
    intro hnil
    rw [pyStrip_eq_nil_iff.mp hnil c hcp] at hcs
    exact Bool.true_eq_false.mp hcs
  have : pyStrip p ∈ paragraphsOf text := by
    unfold paragraphsOf
    exact List.mem_filter.mpr ⟨List.mem_map.mpr ⟨p, hp, rfl⟩, by simpa using hps⟩
  exact List.ne_nil_of_mem this

/-! ## Helper lemmas: the chunking loop -/

theorem overlapOf_eq_pySuffix (ov : Nat) (buf : PyStr) :
    overlapOf ov buf = pySuffix ov buf := by
  unfold overlapOf pySuffix
  by_cases h : buf.length > ov
  · rw [if_pos h]
  · rw [if_neg h]
    by_cases hz : ov = 0
    · rw [if_pos hz]
    · rw [if_neg hz]
      have : buf.length - ov = 0 := by omega
      rw [this, List.drop_zero]

theorem overlapOf_length_le {ov : Nat} (hov : 1 ≤ ov) (buf : PyStr) :
    (overlapOf ov buf).length ≤ ov := by
  unfold overlapOf pySuffix
  by_cases h : buf.length > ov
  · rw [if_pos h, if_neg (by omega)]
    rw [List.length_drop]
    omega
  · rw [if_neg h]
    omega

theorem overlapOf_ne_nil {ov : Nat} (hov : 1 ≤ ov) {buf : PyStr}
    (hbuf : buf ≠ []) : overlapOf ov buf ≠ [] := by
  unfold overlapOf pySuffix
  by_cases h : buf.length > ov
  · rw [if_pos h, if_neg (by omega)]
    intro hd
    have hlen : (buf.drop (buf.length - ov)).length = buf.length - (buf.length - ov) :=
      List.length_drop _ _
    rw [hd] at hlen
    simp only [List.length_nil] at hlen
    omega
  · rw [if_neg h]
    exact hbuf

theorem overlapOf_is_suffix (ov : Nat) (buf : PyStr) :
    ∃ pre, pre ++ overlapOf ov buf = buf := by
  unfold overlapOf pySuffix
  by_cases h : buf.length > ov
  · rw [if_pos h]
    by_cases hz : ov = 0
    · rw [if_pos hz]
      exact ⟨[], rfl⟩
    · rw [if_neg hz]
      exact ⟨buf.take (buf.length - ov), List.take_append_drop _ _⟩
  · rw [if_neg h]
    exact ⟨[], rfl⟩

theorem endsNW_overlapOf {ov : Nat} (hov : 1 ≤ ov) {buf : PyStr}
    (h : EndsNW buf) : EndsNW (overlapOf ov buf) :=
  endsNW_of_suffix h (overlapOf_ne_nil hov (endsNW_ne_nil h))
    (overlapOf_is_suffix ov buf)

theorem pyStrip_length_le (s : PyStr) : (pyStrip s).length ≤ s.length := by
  unfold pyStrip pyRStrip pyLStrip
  calc ((s.dropWhile pyIsSpace).reverse.dropWhile pyIsSpace).reverse.length
      = ((s.dropWhile pyIsSpace).reverse.dropWhile pyIsSpace).length := by
        rw [List.length_reverse]
    _ ≤ (s.dropWhile pyIsSpace).reverse.length :=
        (List.dropWhile_sublist _).length_le
    _ = (s.dropWhile pyIsSpace).length := by rw [List.length_reverse]
    _ ≤ s.length := (List.dropWhile_sublist _).length_le

theorem chunkLoop_eq_enum (size ov : Nat) (fn : PyStr) (md : Dict) :
    ∀ (ps : List PyStr) (buf : PyStr) (cid : Nat),
      chunkLoop size ov fn md ps buf cid =
        (List.enumFrom cid (chunkBuffers size ov ps buf)).map fun ib =>
          { id := fn ++ pys "_chunk_" ++ natStr ib.1, text := pyStrip ib.2,
            metadata := md, chunk_index := ib.1 } := by
  intro ps
  induction ps with
  | nil =>
    intro buf cid
    simp only [chunkLoop, chunkBuffers]
    by_cases h : pyStrip buf ≠ []
    · rw [if_pos h, if_pos h]
      rfl
    · rw [if_neg h, if_neg h]
      rfl
  | cons p ps ih =>
    intro buf cid
    simp only [chunkLoop, chunkBuffers]
    by_cases h : buf.length + p.length > size ∧ buf ≠ []
    · rw [if_pos h, if_pos h]
      simp only [List.enumFrom_cons, List.map_cons]
      rw [ih]
    · rw [if_neg h, if_neg h]
      exact ih _ _

theorem chunkBuffers_endsNW (size ov : Nat) :
    ∀ (ps : List PyStr) (buf : PyStr),
      (∀ p ∈ ps, p ≠ [] ∧ EndsNW p) → (buf = [] ∨ EndsNW buf) →
      ∀ b ∈ chunkBuffers size ov ps buf, EndsNW b := by
  intro ps
  induction ps with
  | nil =>
    intro buf hps hbuf b hb
    simp only [chunkBuffers] at hb
    by_cases h : pyStrip buf ≠ []
    · rw [if_pos h, List.mem_singleton] at hb
      subst hb
      rcases hbuf with rfl | hbuf
      · exact absurd rfl h
      · exact hbuf
    · rw [if_neg h] at hb
      exact absurd hb (List.not_mem_nil b)
  | cons p ps ih =>
    intro buf hps hbuf b hb
    have hp := hps p (List.mem_cons_self _ _)
    have hps' := fun q hq => hps q (List.mem_cons_of_mem _ hq)
    simp only [chunkBuffers] at hb
    by_cases h : buf.length + p.length > size ∧ buf ≠ []
    · rw [if_pos h, List.mem_cons] at hb
      rcases hb with rfl | hb
      · rcases hbuf with rfl | hbuf
        · exact absurd rfl h.2
        · exact hbuf
      · exact ih _ hps' (Or.inr (endsNW_append hp.2)) b hb
    · rw [if_neg h] at hb
      refine ih _ hps' (Or.inr ?_) b hb
      by_cases hbe : buf = []
      · rw [if_pos hbe]
        exact hp.2
      · rw [if_neg hbe]
        exact endsNW_append hp.2

theorem chunkBuffers_ne_nil (size ov : Nat) :
    ∀ (ps : List PyStr) (buf : PyStr),
      (∀ p ∈ ps, p ≠ [] ∧ EndsNW p) →
      (ps ≠ [] ∨ (buf ≠ [] ∧ EndsNW buf)) →
      chunkBuffers size ov ps buf ≠ [] := by
  intro ps
  induction ps with
  | nil =>
    intro buf hps hor
    rcases hor with h | ⟨hne, hend⟩
    · exact absurd rfl h
    · simp only [chunkBuffers]
      rw [if_pos (endsNW_strip_ne_nil hend)]
      exact List.cons_ne_nil _ _
  | cons p ps ih =>
    intro buf hps hor
    have hp := hps p (List.mem_cons_self _ _)
    have hps' := fun q hq => hps q (List.mem_cons_of_mem _ hq)
    simp only [chunkBuffers]
    by_cases h : buf.length + p.length > size ∧ buf ≠ []
    · rw [if_pos h]
      exact List.cons_ne_nil _ _
    · rw [if_neg h]
      refine ih _ hps' (Or.inr ?_)
      by_cases hbe : buf = []
      · rw [if_pos hbe]
        exact ⟨hp.1, hp.2⟩
      · rw [if_neg hbe]
        refine ⟨?_, endsNW_append hp.2⟩
        simp only [ne_eq, List.append_eq_nil]
        intro h1
        exact absurd h1.2 hp.1

theorem chunkBuffers_chain (size ov : Nat) :
    ∀ (ps : List PyStr) (buf : PyStr),
      List.Chain' (fun a b => ∃ t, overlapOf ov a ++ t = b)
        (chunkBuffers size ov ps buf) ∧
      ∀ b ∈ (chunkBuffers size ov ps buf).head?, ∃ t, buf ++ t = b := by
  intro ps
  induction ps with
  | nil =>
    intro buf
    simp only [chunkBuffers]
    by_cases h : pyStrip buf ≠ []
    · rw [if_pos h]
      exact ⟨List.chain'_singleton _, fun b hb => by
        obtain rfl : buf = b := by simpa using hb
        exact ⟨[], List.append_nil _⟩⟩
    · rw [if_neg h]
      exact ⟨List.chain'_nil, fun b hb => by simp at hb⟩
  | cons p ps ih =>
    intro buf
    simp only [chunkBuffers]
    by_cases h : buf.length + p.length > size ∧ buf ≠ []
    · rw [if_pos h]
      obtain ⟨ihchain, ihhead⟩ := ih (overlapOf ov buf ++ pys "\n\n" ++ p)
      constructor
      · refine List.chain'_cons'.mpr ⟨?_, ihchain⟩
        intro y hy
        obtain ⟨t, ht⟩ := ihhead y hy
        exact ⟨pys "\n\n" ++ p ++ t, by rw [← ht]; simp [List.append_assoc]⟩
      · intro b hb
        obtain rfl : buf = b := by simpa using hb
        exact ⟨[], List.append_nil _⟩
    · rw [if_neg h]
      obtain ⟨ihchain, ihhead⟩ := ih (if buf = [] then p else buf ++ pys "\n\n" ++ p)
      refine ⟨ihchain, fun b hb => ?_⟩
      obtain ⟨t, ht⟩ := ihhead b hb
      by_cases hbe : buf = []
      · rw [if_pos hbe] at ht
        subst hbe
        exact ⟨p ++ t, by rw [← ht]; rfl⟩
      · rw [if_neg hbe] at ht
        exact ⟨pys "\n\n" ++ p ++ t, by rw [← ht]; simp [List.append_assoc]⟩

theorem chunkBuffers_length_le (size ov : Nat) (hov : 1 ≤ ov) :
    ∀ (ps : List PyStr) (buf : PyStr),
      (∀ p ∈ ps, p.length ≤ size) → buf.length ≤ size + ov + 2 →
      ∀ b ∈ chunkBuffers size ov ps buf, b.length ≤ size + ov + 2 := by
  intro ps
  induction ps with
  | nil =>
    intro buf hps hbuf b hb
    simp only [chunkBuffers] at hb
    by_cases h : pyStrip buf ≠ []
    · rw [if_pos h, List.mem_singleton] at hb
      subst hb
      exact hbuf
    · rw [if_neg h] at hb
      exact absurd hb (List.not_mem_nil b)
  | cons p ps ih =>
    intro buf hps hbuf b hb
    have hp := hps p (List.mem_cons_self _ _)
    have hps' := fun q hq => hps q (List.mem_cons_of_mem _ hq)
    simp only [chunkBuffers] at hb
    by_cases h : buf.length + p.length > size ∧ buf ≠ []
    · rw [if_pos h, List.mem_cons] at hb
      rcases hb with rfl | hb
      · exact hbuf
      · refine ih _ hps' ?_ b hb
        have h1 : (overlapOf ov buf).length ≤ ov := overlapOf_length_le hov buf
        have h2 : (pys "\n\n").length = 2 := rfl
        simp only [List.length_append, h2]
        omega
    · rw [if_neg h] at hb
      refine ih _ hps' ?_ b hb
      by_cases hbe : buf = []
      · rw [if_pos hbe]
        omega
      · rw [if_neg hbe]
        have hle : ¬(buf.length + p.length > size) := fun hgt => h ⟨hgt, hbe⟩
        have h2 : (pys "\n\n").length = 2 := rfl
        simp only [List.length_append, h2]
        omega

theorem chunk_text_chunks_ne_nil {size ov : Nat} {text : PyStr} {md : Dict}
    {cs : List Chunk} (htext : pyStrip text ≠ [])
    (h : chunk_text size ov text md = .ok cs) : cs ≠ [] := by
  unfold chunk_text at h
  rw [if_neg htext] at h
  rcases hopt : pyGetOpt md "filename" with _ | fn
  · rw [hopt] at h
    exact absurd h (by simp)
  · rw [hopt] at h
    obtain rfl : chunkLoop size ov fn md (paragraphsOf text) [] 0 = cs :=
      Except.ok.inj h
    rw [chunkLoop_eq_enum]
    intro hnil
    have h1 : List.enumFrom 0 (chunkBuffers size ov (paragraphsOf text) []) = [] :=
      List.map_eq_nil_iff.mp hnil
    have h2 : chunkBuffers size ov (paragraphsOf text) [] = [] := by
      have := congrArg List.length h1
      rw [List.enumFrom_length] at this
      exact List.length_eq_zero.mp this
    exact chunkBuffers_ne_nil size ov _ []
      (fun p hp => paragraphsOf_mem hp)
      (Or.inl (paragraphsOf_ne_nil htext)) h2

/-! ## Helper lemmas: dict updates -/

theorem find?_map_set {k : String} {v : PyStr} :
    ∀ d : Dict, d.any (fun p => p.1 == k) = true →
      (d.map fun p => if p.1 == k then (k, v) else p).find?
        (fun p => p.1 == k) = some (k, v) := by
  intro d
  induction d with
  | nil => intro h; simp at h
  | cons a t ih =>
    intro h
    by_cases ha : (a.1 == k) = true
    · simp only [List.map_cons, if_pos ha]
      exact List.find?_cons_of_pos (p := fun q : String × PyStr => q.1 == k) _
        (by simp)
    · simp only [List.map_cons, if_neg ha]
      rw [List.find?_cons_of_neg (p := fun q : String × PyStr => q.1 == k) _ ha]
      apply ih
      simp only [List.any_cons, Bool.eq_false_iff.mpr ha, Bool.false_or] at h
      exact h

theorem pyGetOpt_pySet_same (d : Dict) (k : String) (v : PyStr) :
    pyGetOpt (pySet d k v) k = some v := by
  unfold pySet pyGetOpt pyHasKey
  by_cases h : d.any (fun p => p.1 == k) = true
  · rw [if_pos h, find?_map_set d h]
    rfl
  · rw [if_neg h, List.find?_append]
    have hnone : d.find? (fun p => p.1 == k) = none := by
      rw [List.find?_eq_none]
      intro x hx hpx
      exact h (List.any_eq_true.mpr ⟨x, hx, hpx⟩)
    rw [hnone]
    simp

theorem find?_map_set_ne {k k' : String} {v : PyStr} (hne : k' ≠ k) :
    ∀ d : Dict,
      (d.map fun p => if p.1 == k then (k, v) else p).find?
        (fun p => p.1 == k') = d.find? (fun p => p.1 == k') := by
  have hkk : ¬((k : String) == k') = true := by
    simp only [beq_iff_eq]
    exact fun hh => hne hh.symm
  intro d
  induction d with
  | nil => rfl
  | cons a t ih =>
    simp only [List.map_cons]
    by_cases ha : (a.1 == k) = true
    · rw [if_pos ha]
      have h2 : ¬(a.1 == k') = true := by
        intro hh
        have ha1 : a.1 = k' := by simpa using hh
        rw [ha1] at ha
        have ha2 : k' = k := by simpa using ha
        exact hne ha2
      rw [List.find?_cons_of_neg (p := fun q : String × PyStr => q.1 == k') _ hkk,
        List.find?_cons_of_neg (p := fun q : String × PyStr => q.1 == k') _ h2]
      exact ih
    · rw [if_neg ha]
      by_cases ha' : (a.1 == k') = true
      · rw [List.find?_cons_of_pos (p := fun q : String × PyStr => q.1 == k') _ ha',
          List.find?_cons_of_pos (p := fun q : String × PyStr => q.1 == k') _ ha']
      · rw [List.find?_cons_of_neg (p := fun q : String × PyStr => q.1 == k') _ ha',
          List.find?_cons_of_neg (p := fun q : String × PyStr => q.1 == k') _ ha']
        exact ih

theorem pyGetOpt_pySet_ne (d : Dict) {k k' : String} (v : PyStr) (hne : k' ≠ k) :
    pyGetOpt (pySet d k v) k' = pyGetOpt d k' := by
  have hkk : ¬((k : String) == k') = true := by
    simp only [beq_iff_eq]
    exact fun hh => hne hh.symm
  unfold pySet pyGetOpt pyHasKey
  by_cases h : d.any (fun p => p.1 == k) = true
  · rw [if_pos h, find?_map_set_ne hne d]
  · rw [if_neg h, List.find?_append]
    rcases hfind : d.find? (fun p => p.1 == k') with _ | x
    · rw [hfind]
      rw [List.find?_cons_of_neg (p := fun q : String × PyStr => q.1 == k') _ hkk]
      rfl
    · rw [hfind]
      rfl

/-! ## Claim C1 -/

/-- Claim C1, counterexample.  Chunking `"aaaaaa\n\nbbb\n\nc"` with size 10
and overlap 5 closes the first buffer `"aaaaaa\n\nbbb"`; the last 5
characters of that pre-overlap buffer are `"\n\nbbb"`, but the second chunk's
text is the stripped `"bbb\n\nc"`, which does not start with them — the
`strip()` at emission removes the overlap's leading whitespace, so the claim
as stated is false. -/
theorem C1_counterexample :
    chunk_text 10 5 (pys "aaaaaa\n\nbbb\n\nc") [("filename", pys "f")] =
      .ok [{ id := pys "f_chunk_0", text := pys "aaaaaa\n\nbbb",
             metadata := [("filename", pys "f")], chunk_index := 0 },
           { id := pys "f_chunk_1", text := pys "bbb\n\nc",
             metadata := [("filename", pys "f")], chunk_index := 1 }] ∧
    chunkBuffers 10 5 (paragraphsOf (pys "aaaaaa\n\nbbb\n\nc")) [] =
      [pys "aaaaaa\n\nbbb", pys "\n\nbbb\n\nc"] ∧
    pySuffix 5 (pys "aaaaaa\n\nbbb") = pys "\n\nbbb" ∧
    pyStartsWith (pySuffix 5 (pys "aaaaaa\n\nbbb")) (pys "bbb\n\nc") = false := by
  refine ⟨rfl, rfl, rfl, ?_⟩
  decide

/-- Claim C1, amended: for every text chunked with overlap `o ≥ 1` and size
`s`, every chunk after the first contains, as a prefix of its text, the last
`o` characters of the previous chunk's pre-overlap buffer *with their leading
whitespace stripped* (the emitted text is `strip()`ped, which removes any
leading whitespace of the raw overlap); the chunk texts are exactly the
strips of the successive pre-overlap buffers. -/
theorem C1_theorem (size ov : Nat) (text : PyStr) (md : Dict)
    (cs : List Chunk) (hov : 1 ≤ ov)
    (h : chunk_text size ov text md = .ok cs) :
    cs.map Chunk.text =
      (chunkBuffers size ov (paragraphsOf text) []).map pyStrip ∧
    ∀ i (hi : i + 1 < (chunkBuffers size ov (paragraphsOf text) []).length),
      ∃ t, pyLStrip (pySuffix ov
          ((chunkBuffers size ov (paragraphsOf text) []).get ⟨i, by omega⟩)) ++ t =
        pyStrip ((chunkBuffers size ov (paragraphsOf text) []).get ⟨i + 1, hi⟩) := by
  have hB := chunkBuffers_chain size ov (paragraphsOf text) []
  by_cases htext : pyStrip text = []
  · unfold chunk_text at h
    rw [if_pos htext] at h
    obtain rfl : ([] : List Chunk) = cs := Except.ok.inj h
    rw [paragraphsOf_nil_of_strip_nil htext]
    constructor
    · rfl
    · intro i hi
      simp only [chunkBuffers] at hi
      rw [if_neg (by intro hh; exact hh rfl)] at hi
      simp at hi
  · unfold chunk_text at h
    rw [if_neg htext] at h
    rcases hopt : pyGetOpt md "filename" with _ | fn
    · rw [hopt] at h
      exact absurd h (by simp)
    · rw [hopt] at h
      obtain rfl : chunkLoop size ov fn md (paragraphsOf text) [] 0 = cs :=
        Except.ok.inj h
      constructor
      · rw [chunkLoop_eq_enum, List.map_map]
        have : ((fun c : Chunk => c.text) ∘ fun ib : Nat × PyStr =>
            ({ id := fn ++ pys "_chunk_" ++ natStr ib.1, text := pyStrip ib.2,
               metadata := md, chunk_index := ib.1 } : Chunk)) =
            pyStrip ∘ Prod.snd := rfl
        rw [this, ← List.map_map, List.enumFrom_map_snd]
      · intro i hi
        have hchain := hB.1
        rw [List.chain'_iff_get] at hchain
        obtain ⟨t, ht⟩ := hchain i (by omega)
        set B := chunkBuffers size ov (paragraphsOf text) [] with hBdef
        have hmem1 : B.get ⟨i, by omega⟩ ∈ B := List.get_mem _ _ _
        have hmem2 : B.get ⟨i + 1, hi⟩ ∈ B := List.get_mem _ _ _
        have hend1 : EndsNW (B.get ⟨i, by omega⟩) :=
          chunkBuffers_endsNW size ov (paragraphsOf text) []
            (fun p hp => paragraphsOf_mem hp) (Or.inl rfl) _ hmem1
        have hend2 : EndsNW (B.get ⟨i + 1, hi⟩) :=
          chunkBuffers_endsNW size ov (paragraphsOf text) []
            (fun p hp => paragraphsOf_mem hp) (Or.inl rfl) _ hmem2
        have hovl : EndsNW (overlapOf ov (B.get ⟨i, by omega⟩)) :=
          endsNW_overlapOf hov hend1
        have hlne : pyLStrip (overlapOf ov (B.get ⟨i, by omega⟩)) ≠ [] :=
          (endsNW_pyLStrip hovl).1
        refine ⟨t, ?_⟩
        rw [← overlapOf_eq_pySuffix]
        rw [pyStrip_of_endsNW hend2, ← ht,
          pyLStrip_append_of_ne_nil hlne]

/-- Claim C1, witness: the amended statement evaluated on the concrete
counterexample input, with overlap 5 and size 10. -/
theorem C1_witness :
    ∃ t, pyLStrip (pySuffix 5
        ((chunkBuffers 10 5 (paragraphsOf (pys "aaaaaa\n\nbbb\n\nc")) []).get
          ⟨0, by decide⟩)) ++ t =
      pyStrip ((chunkBuffers 10 5 (paragraphsOf (pys "aaaaaa\n\nbbb\n\nc")) []).get
        ⟨1, by decide⟩) :=
  (C1_theorem 10 5 (pys "aaaaaa\n\nbbb\n\nc") [("filename", pys "f")] _
    (by decide) rfl).2 0 (by decide)

/-! ## Claim C2 -/

set_option maxRecDepth 40000 in
/-- Claim C2, counterexample.  No paragraph of `c2text` exceeds the
configured chunk size 400, yet the first emitted chunk has 402 characters:
the check `len(current_chunk) + len(paragraph) > chunk_size` does not count
the two `"\n\n"` join characters added per appended paragraph, so the claim
as stated (chunk length ≤ chunk_size unless a single paragraph exceeds it)
is false. -/
theorem C2_counterexample :
    (∀ p ∈ paragraphsOf c2text, p.length ≤ Config.CHUNK_SIZE) ∧
    ∃ cs, chunk_text Config.CHUNK_SIZE Config.CHUNK_OVERLAP c2text
        [("filename", pys "f")] = .ok cs ∧
      ∃ c ∈ cs, Config.CHUNK_SIZE < c.text.length := by
  refine ⟨by decide, _, rfl, ?_⟩
  decide

/-- Claim C2, amended: when no single paragraph exceeds `chunk_size` (and the
overlap is at least 1), every emitted chunk's text has length at most
`chunk_size + chunk_overlap + 2` — the overlap seed plus the two `"\n\n"`
join characters not counted by the size check account for the slack; a
paragraph longer than `chunk_size` is still kept whole, so no bound holds for
chunks containing one. -/
theorem C2_theorem (size ov : Nat) (text : PyStr) (md : Dict) (cs : List Chunk)
    (hov : 1 ≤ ov) (hps : ∀ p ∈ paragraphsOf text, p.length ≤ size)
    (h : chunk_text size ov text md = .ok cs) :
    ∀ c ∈ cs, c.text.length ≤ size + ov + 2 := by
  by_cases htext : pyStrip text = []
  · unfold chunk_text at h
    rw [if_pos htext] at h
    obtain rfl : ([] : List Chunk) = cs := Except.ok.inj h
    intro c hc
    exact absurd hc (List.not_mem_nil c)
  · unfold chunk_text at h
    rw [if_neg htext] at h
    rcases hopt : pyGetOpt md "filename" with _ | fn
    · rw [hopt] at h
      exact absurd h (by simp)
    · rw [hopt] at h
      obtain rfl : chunkLoop size ov fn md (paragraphsOf text) [] 0 = cs :=
        Except.ok.inj h
      intro c hc
      rw [chunkLoop_eq_enum] at hc
      obtain ⟨ib, hib, rfl⟩ := List.mem_map.mp hc
      have hmem : ib.2 ∈ chunkBuffers size ov (paragraphsOf text) [] := by
        have h1 := List.mem_map_of_mem Prod.snd hib
        rwa [List.enumFrom_map_snd] at h1
      have hlen := chunkBuffers_length_le size ov hov (paragraphsOf text) []
        hps (by simp) ib.2 hmem
      calc (pyStrip ib.2).length ≤ ib.2.length := pyStrip_length_le ib.2
        _ ≤ size + ov + 2 := hlen

/-- Claim C2, witness: the amended bound applied at size 10 and overlap 5 to
the first chunk of the C1 example text (11 characters ≤ 10 + 5 + 2). -/
theorem C2_witness :
    ({ id := pys "f_chunk_0", text := pys "aaaaaa\n\nbbb",
       metadata := [("filename", pys "f")], chunk_index := 0 } : Chunk).text.length
      ≤ 10 + 5 + 2 :=
  C2_theorem 10 5 (pys "aaaaaa\n\nbbb\n\nc") [("filename", pys "f")] _
    (by decide) (by decide) rfl _ (by decide)

/-! ## Claim C3 -/

/-- Claim C3: the chunk indices of `chunk_text` are `0, 1, …, n-1` with no
gaps, each chunk's `id` is `"{filename}_chunk_{chunk_index}"` built from the
metadata `filename`, and a blank (empty or whitespace-only) text yields an
empty chunk list rather than an error. -/
theorem C3_theorem (size ov : Nat) (text : PyStr) (md : Dict) :
    (pyStrip text = [] → chunk_text size ov text md = .ok []) ∧
    ∀ cs, chunk_text size ov text md = .ok cs →
      ∀ i (hi : i < cs.length),
        (cs.get ⟨i, hi⟩).chunk_index = i ∧
        (cs.get ⟨i, hi⟩).id =
          pyGetD md "filename" [] ++ pys "_chunk_" ++ natStr i := by
  constructor
  · intro htext
    unfold chunk_text
    rw [if_pos htext]
  · intro cs h i hi
    by_cases htext : pyStrip text = []
    · unfold chunk_text at h
      rw [if_pos htext] at h
      obtain rfl : ([] : List Chunk) = cs := Except.ok.inj h
      exact absurd hi (by simp)
    · unfold chunk_text at h
      rw [if_neg htext] at h
      rcases hopt : pyGetOpt md "filename" with _ | fn
      · rw [hopt] at h
        exact absurd h (by simp)
      · rw [hopt] at h
        obtain rfl : chunkLoop size ov fn md (paragraphsOf text) [] 0 = cs :=
          Except.ok.inj h
        have hfn : pyGetD md "filename" [] = fn := by
          unfold pyGetD
          unfold pyGetOpt at hopt
          rw [hopt]
          rfl
        have heq := chunkLoop_eq_enum size ov fn md (paragraphsOf text) [] 0
        rw [List.get_eq_getElem]
        simp only [heq, List.getElem_map, List.getElem_enumFrom]
        rw [hfn]
        exact ⟨Nat.zero_add i, by rw [Nat.zero_add i]⟩

/-! ## Helper lemmas: batching and counting -/

theorem pyBatchesF_flatten {α : Type} {bs : Nat} (hbs : 1 ≤ bs) :
    ∀ (fuel : Nat) (l : List α), l.length ≤ fuel →
      (pyBatchesF bs fuel l).flatten = l := by
  intro fuel
  induction fuel with
  | zero =>
    intro l hl
    obtain rfl : l = [] := List.length_eq_zero.mp (Nat.le_zero.mp hl)
    rfl
  | succ fuel ih =>
    intro l hl
    rcases l with _ | ⟨x, xs⟩
    · rfl
    · simp only [pyBatchesF, List.flatten_cons]
      rw [ih ((x :: xs).drop bs) (by
        rw [List.length_drop]
        simp only [List.length_cons] at hl ⊢
        omega)]
      exact List.take_append_drop bs (x :: xs)

theorem pyBatchesF_sizes {α : Type} {bs : Nat} :
    ∀ (fuel : Nat) (l : List α) (b : List α),
      b ∈ pyBatchesF bs fuel l → b.length ≤ bs := by
  intro fuel
  induction fuel with
  | zero =>
    intro l b hb
    rcases l with _ | ⟨x, xs⟩ <;> simp [pyBatchesF] at hb
  | succ fuel ih =>
    intro l b hb
    rcases l with _ | ⟨x, xs⟩
    · simp [pyBatchesF] at hb
    · simp only [pyBatchesF, List.mem_cons] at hb
      rcases hb with rfl | hb
      · rw [List.length_take]
        omega
      · exact ih _ b hb

theorem pyBatches_flatten {α : Type} {bs : Nat} (hbs : 1 ≤ bs) (l : List α) :
    (pyBatches bs l).flatten = l :=
  pyBatchesF_flatten hbs l.length l (Nat.le_refl _)

theorem processFile_count (size ov : Nat) (env : String → ExtractOutcome)
    (acc : BatchResults × IndexerState) (path : String) :
    (processFile size ov env acc path).1.processed +
      (processFile size ov env acc path).1.failed =
    acc.1.processed + acc.1.failed + 1 := by
  obtain ⟨br, st⟩ := acc
  rcases henv : env path with msg | ⟨text, md⟩
  · have hred : processFile size ov env (br, st) path =
        ({ br with
            failed := br.failed + 1
            errors := br.errors ++ ["Chyba při zpracování " ++ path ++ ": " ++ msg] },
         { st with failed_files := st.failed_files ++ [path] }) := by
      unfold processFile
      rw [henv]
    rw [hred]
    show br.processed + (br.failed + 1) = br.processed + br.failed + 1
    omega
  · by_cases ht : pyStrip text = []
    · have hred : processFile size ov env (br, st) path =
          ({ br with failed := br.failed + 1 },
           { st with failed_files := st.failed_files ++ [path] }) := by
        unfold processFile
        simp only [henv]
        rw [if_pos ht]
      rw [hred]
      show br.processed + (br.failed + 1) = br.processed + br.failed + 1
      omega
    · rcases hct : chunk_text size ov text md with e | chunks
      · have hred : processFile size ov env (br, st) path =
            ({ br with
                failed := br.failed + 1
                errors := br.errors ++ ["Chyba při zpracování " ++ path ++ ": " ++ e] },
             { st with failed_files := st.failed_files ++ [path] }) := by
          unfold processFile
          simp only [henv]
          rw [if_neg ht]
          simp only [hct]
        rw [hred]
        show br.processed + (br.failed + 1) = br.processed + br.failed + 1
        omega
      · have hne : chunks ≠ [] := chunk_text_chunks_ne_nil ht hct
        rcases hcc : convertChunks chunks with e | docs
        · have hred : processFile size ov env (br, st) path =
              ({ br with
                  failed := br.failed + 1
                  errors := br.errors ++ ["Chyba při zpracování " ++ path ++ ": " ++ e] },
               { st with failed_files := st.failed_files ++ [path] }) := by
            unfold processFile
            simp only [henv]
            rw [if_neg ht]
            simp only [hct]
            rw [if_pos hne]
            simp only [hcc]
          rw [hred]
          show br.processed + (br.failed + 1) = br.processed + br.failed + 1
          omega
        · have hred : processFile size ov env (br, st) path =
              ({ br with
                  processed := br.processed + 1
                  total_chunks := br.total_chunks + chunks.length },
               { st with processed_files := st.processed_files ++ [path] }) := by
            unfold processFile
            simp only [henv]
            rw [if_neg ht]
            simp only [hct]
            rw [if_pos hne]
            simp only [hcc]
          rw [hred]
          show br.processed + 1 + br.failed = br.processed + br.failed + 1
          omega

theorem foldl_processFile_count (size ov : Nat) (env : String → ExtractOutcome) :
    ∀ (files : List String) (acc : BatchResults × IndexerState),
      (files.foldl (processFile size ov env) acc).1.processed +
        (files.foldl (processFile size ov env) acc).1.failed =
      acc.1.processed + acc.1.failed + files.length := by
  intro files
  induction files with
  | nil => intro acc; rfl
  | cons f files ih =>
    intro acc
    simp only [List.foldl_cons, List.length_cons]
    rw [ih (processFile size ov env acc f), processFile_count]
    omega

theorem process_batch_count (size ov : Nat) (env : String → ExtractOutcome)
    (st : IndexerState) (files : List String) :
    (process_batch size ov env st files).1.processed +
      (process_batch size ov env st files).1.failed = files.length := by
  unfold process_batch
  rw [foldl_processFile_count]
  show 0 + 0 + files.length = files.length
  omega

theorem batchStep_count (size ov : Nat) (env : String → ExtractOutcome)
    (acc : BatchResults × IndexerState) (batch : List String) :
    (batchStep size ov env acc batch).1.processed +
      (batchStep size ov env acc batch).1.failed =
    acc.1.processed + acc.1.failed + batch.length := by
  unfold batchStep
  have h := process_batch_count size ov env acc.2 batch
  simp only []
  omega

theorem foldl_batchStep_count (size ov : Nat) (env : String → ExtractOutcome) :
    ∀ (batches : List (List String)) (acc : BatchResults × IndexerState),
      (batches.foldl (batchStep size ov env) acc).1.processed +
        (batches.foldl (batchStep size ov env) acc).1.failed =
      acc.1.processed + acc.1.failed + (batches.map List.length).sum := by
  intro batches
  induction batches with
  | nil => intro acc; simp
  | cons batch batches ih =>
    intro acc
    simp only [List.foldl_cons, List.map_cons, List.sum_cons]
    rw [ih (batchStep size ov env acc batch), batchStep_count]
    omega

/-! ## Claim C5 -/

/-- Claim C5: for a 7-element document list and `batch_size = 3` the partition
is exactly 3 consecutive batches of sizes 3, 3, 1; in general (for a positive
batch size) the batches concatenate back to the document list, each batch has
at most `batch_size` elements, and the final report counts every document
exactly once: `total_processed + total_failed = number of documents`. -/
theorem C5_theorem (size ov bs : Nat) (env : String → ExtractOutcome)
    (files : List String) (hbs : 1 ≤ bs) :
    (pyBatches bs files).flatten = files ∧
    (∀ b ∈ pyBatches bs files, b.length ≤ bs) ∧
    (index_all_documents size ov bs (some files) env).total_processed +
      (index_all_documents size ov bs (some files) env).total_failed =
      files.length ∧
    (bs = 3 → files.length = 7 →
      (pyBatches bs files).map List.length = [3, 3, 1]) := by
  refine ⟨pyBatches_flatten hbs files, fun b hb => pyBatchesF_sizes _ _ b hb,
    ?_, ?_⟩
  · simp only [index_all_documents, get_pdf_files]
    by_cases hf : files = []
    · rw [if_pos hf]
      subst hf
      rfl
    · rw [if_neg hf]
      rw [foldl_batchStep_count]
      have hsum : ((pyBatches bs files).map List.length).sum = files.length := by
        rw [← List.length_flatten, pyBatches_flatten hbs]
      simp only [hsum]
      omega
  · intro hbs3 hlen
    subst hbs3
    rcases files with _ | ⟨a1, files⟩
    · simp at hlen
    rcases files with _ | ⟨a2, files⟩
    · simp at hlen
    rcases files with _ | ⟨a3, files⟩
    · simp at hlen
    rcases files with _ | ⟨a4, files⟩
    · simp at hlen
    rcases files with _ | ⟨a5, files⟩
    · simp at hlen
    rcases files with _ | ⟨a6, files⟩
    · simp at hlen
    rcases files with _ | ⟨a7, files⟩
    · simp at hlen
    rcases files with _ | ⟨a8, files⟩
    · rfl
    · simp at hlen

/-- Claim C5, witness: 7 concrete paths with batch size 3 (and an extractor
that fails on every path) give batch sizes `[3, 3, 1]` and a report counting
all 7 documents. -/
theorem C5_witness :
    (pyBatches 3 ["a", "b", "c", "d", "e", "f", "g"]).map List.length =
      [3, 3, 1] ∧
    (index_all_documents 400 100 3 (some ["a", "b", "c", "d", "e", "f", "g"])
        fun _ => .raises "io").total_processed +
      (index_all_documents 400 100 3 (some ["a", "b", "c", "d", "e", "f", "g"])
        fun _ => .raises "io").total_failed = 7 :=
  ⟨(C5_theorem 400 100 3 (fun _ => .raises "io") ["a", "b", "c", "d", "e", "f", "g"]
      (by decide)).2.2.2 rfl rfl,
   (C5_theorem 400 100 3 (fun _ => .raises "io") ["a", "b", "c", "d", "e", "f", "g"]
      (by decide)).2.2.1⟩

/-! ## Claim C6 -/

/-- Claim C6: `index_all_documents` is a total function of its inputs (it
never raises): a missing source directory or an empty document list yields a
structured failure report with `success = false` and an `error` entry, and on
every run `success` is true exactly when `total_processed > 0`, so a run in
which every document fails is reported unsuccessful. -/
theorem C6_theorem (size ov bs : Nat) (dir : Option (List String))
    (env : String → ExtractOutcome) :
    ((index_all_documents size ov bs dir env).success = true ↔
      0 < (index_all_documents size ov bs dir env).total_processed) ∧
    (dir = none →
      (index_all_documents size ov bs dir env).success = false ∧
      (index_all_documents size ov bs dir env).error.isSome = true) ∧
    (dir = some [] →
      (index_all_documents size ov bs dir env).success = false ∧
      (index_all_documents size ov bs dir env).error.isSome = true) := by
  rcases dir with _ | files
  · refine ⟨?_, ?_, ?_⟩
    · simp [index_all_documents, get_pdf_files]
    · intro _
      exact ⟨rfl, rfl⟩
    · intro h
      exact absurd h (by simp)
  · by_cases hf : files = []
    · subst hf
      refine ⟨?_, ?_, ?_⟩
      · simp [index_all_documents, get_pdf_files]
      · intro h
        exact absurd h (by simp)
      · intro _
        exact ⟨rfl, rfl⟩
    · refine ⟨?_, ?_, ?_⟩
      · simp only [index_all_documents, get_pdf_files]
        rw [if_neg hf]
        simp only [decide_eq_true_eq]
      · intro h
        exact absurd h (by simp)
      · intro h
        exact absurd (Option.some.inj h) hf

/-- Claim C6, witness: a missing directory gives a failure report whose
`success` is false with an error message present, and the success criterion
evaluated on a run where the single document fails. -/
theorem C6_witness :
    (index_all_documents 400 100 5 none fun _ => .raises "io").success = false ∧
    (index_all_documents 400 100 5 none fun _ => .raises "io").error.isSome = true ∧
    ((index_all_documents 400 100 5 (some ["a"]) fun _ => .raises "io").success = true ↔
      0 < (index_all_documents 400 100 5 (some ["a"])
        fun _ => .raises "io").total_processed) :=
  ⟨((C6_theorem 400 100 5 none fun _ => .raises "io").2.1 rfl).1,
   ((C6_theorem 400 100 5 none fun _ => .raises "io").2.1 rfl).2,
   (C6_theorem 400 100 5 (some ["a"]) fun _ => .raises "io").1⟩

/-! ## Helper lemmas: the store model -/

theorem storeGet_storeSet_ne (st : Store) {r r' : Nat} (k : String) (v : PyStr)
    (hne : r' ≠ r) : storeGet (storeSet st r k v) r' = storeGet st r' := by
  unfold storeGet storeSet
  rw [List.getD_eq_getElem?_getD, List.getD_eq_getElem?_getD,
    List.getElem?_set_ne (fun hh => hne hh.symm)]

theorem chunkLoopSt_spec (size ov : Nat) (fn : PyStr) (mdRef : Nat) :
    ∀ (ps : List PyStr) (buf : PyStr) (cid : Nat) (st : Store),
      mdRef < st.length →
      st.length ≤ (chunkLoopSt size ov fn mdRef ps buf cid st).1.length ∧
      (∀ j, j < st.length →
        (chunkLoopSt size ov fn mdRef ps buf cid st).1.getD j [] = st.getD j []) ∧
      (∀ c ∈ (chunkLoopSt size ov fn mdRef ps buf cid st).2,
        st.length ≤ c.mdRef ∧
        c.mdRef < (chunkLoopSt size ov fn mdRef ps buf cid st).1.length ∧
        (chunkLoopSt size ov fn mdRef ps buf cid st).1.getD c.mdRef [] =
          st.getD mdRef []) ∧
      List.Chain' (fun a b => a.mdRef < b.mdRef)
        (chunkLoopSt size ov fn mdRef ps buf cid st).2 := by
  intro ps
  induction ps with
  | nil =>
    intro buf cid st hmd
    simp only [chunkLoopSt]
    by_cases h : pyStrip buf ≠ []
    · rw [if_pos h]
      dsimp only
      refine ⟨by simp, ?_, ?_, List.chain'_singleton _⟩
      · intro j hj
        exact List.getD_append _ _ _ _ hj
      · intro c hc
        rw [List.mem_singleton] at hc
        subst hc
        refine ⟨Nat.le_refl _, by simp, ?_⟩
        rw [List.getD_append_right _ _ _ _ (Nat.le_refl _), Nat.sub_self]
        rfl
    · rw [if_neg h]
      exact ⟨Nat.le_refl _, fun j _ => rfl, fun c hc => absurd hc (by simp),
        List.chain'_nil⟩
  | cons p ps ih =>
    intro buf cid st hmd
    simp only [chunkLoopSt]
    by_cases h : buf.length + p.length > size ∧ buf ≠ []
    · rw [if_pos h]
      dsimp only
      have hmd' : mdRef < (st ++ [storeGet st mdRef]).length := by
        simp only [List.length_append, List.length_cons, List.length_nil]
        omega
      obtain ⟨ih1, ih2, ih3, ih4⟩ :=
        ih (overlapOf ov buf ++ pys "\n\n" ++ p) (cid + 1)
          (st ++ [storeGet st mdRef]) hmd'
      have hstlen : (st ++ [storeGet st mdRef]).length = st.length + 1 := by
        simp
      refine ⟨?_, ?_, ?_, ?_⟩
      · omega
      · intro j hj
        rw [ih2 j (by omega)]
        exact List.getD_append _ _ _ _ hj
      · intro c hc
        simp only [List.mem_cons] at hc
        rcases hc with rfl | hc
        · refine ⟨Nat.le_refl _, ?_, ?_⟩
          · show st.length < _
            omega
          · rw [ih2 st.length (by omega),
              List.getD_append_right _ _ _ _ (Nat.le_refl _), Nat.sub_self]
            rfl
        · obtain ⟨hc1, hc2, hc3⟩ := ih3 c hc
          refine ⟨by omega, hc2, ?_⟩
          rw [hc3]
          exact List.getD_append _ _ _ _ hmd
      · refine List.chain'_cons'.mpr ⟨?_, ih4⟩
        intro y hy
        obtain ⟨hy1, -, -⟩ := ih3 y (List.mem_of_mem_head? hy)
        show st.length < y.mdRef
        omega
    · rw [if_neg h]
      exact ih _ cid st hmd

/-! ## Claim C9 -/

/-- Claim C9: in the store model of `chunk_text`, where `metadata.copy()`
allocates a fresh dict per emitted chunk, the input dict is never written;
every chunk's metadata address is distinct from the input's and from every
other chunk's while holding an equal copy of the input dict; and mutating the
dict at one chunk's address changes neither the input dict nor the dict at
any other address. -/
theorem C9_theorem (size ov : Nat) (text : PyStr) (mdRef : Nat) (st st' : Store)
    (refs : List ChunkRef) (hmd : mdRef < st.length)
    (h : chunk_text_st size ov text mdRef st = .ok (st', refs)) :
    storeGet st' mdRef = storeGet st mdRef ∧
    (∀ c ∈ refs, c.mdRef ≠ mdRef ∧ storeGet st' c.mdRef = storeGet st mdRef) ∧
    (refs.map ChunkRef.mdRef).Pairwise (· ≠ ·) ∧
    (∀ c ∈ refs, ∀ k v,
      storeGet (storeSet st' c.mdRef k v) mdRef = storeGet st mdRef ∧
      ∀ c' ∈ refs, c'.mdRef ≠ c.mdRef →
        storeGet (storeSet st' c.mdRef k v) c'.mdRef = storeGet st' c'.mdRef) := by
  unfold chunk_text_st at h
  by_cases htext : pyStrip text = []
  · rw [if_pos htext] at h
    obtain ⟨rfl, rfl⟩ : st = st' ∧ ([] : List ChunkRef) = refs := by
      have := Except.ok.inj h
      exact ⟨congrArg Prod.fst this, congrArg Prod.snd this⟩
    refine ⟨rfl, fun c hc => absurd hc (by simp), by simp, ?_⟩
    intro c hc
    exact absurd hc (by simp)
  · rw [if_neg htext] at h
    rcases hopt : pyGetOpt (storeGet st mdRef) "filename" with _ | fn
    · rw [hopt] at h
      exact absurd h (by simp)
    · rw [hopt] at h
      have heq : chunkLoopSt size ov fn mdRef (paragraphsOf text) [] 0 st =
          (st', refs) := Except.ok.inj h
      obtain ⟨h1, h2, h3, h4⟩ :=
        chunkLoopSt_spec size ov fn mdRef (paragraphsOf text) [] 0 st hmd
      rw [heq] at h1 h2 h3 h4
      refine ⟨h2 mdRef hmd, ?_, ?_, ?_⟩
      · intro c hc
        obtain ⟨hc1, hc2, hc3⟩ := h3 c hc
        exact ⟨by omega, hc3⟩
      · have hchain : List.Chain' (· < ·) (refs.map ChunkRef.mdRef) :=
          (List.chain'_map ChunkRef.mdRef).mpr h4
        have hpw : (refs.map ChunkRef.mdRef).Pairwise (· < ·) :=
          List.chain'_iff_pairwise.mp hchain
        exact hpw.imp ne_of_lt
      · intro c hc k v
        obtain ⟨hc1, hc2, hc3⟩ := h3 c hc
        constructor
        · rw [storeGet_storeSet_ne st' k v (by omega)]
          exact h2 mdRef hmd
        · intro c' hc' hne
          exact storeGet_storeSet_ne st' k v hne

/-- Claim C9, witness: on the C1 example text with the input dict at address
0 of a one-dict store, the two emitted chunks get fresh distinct addresses
holding copies, and the input dict is unchanged. -/
theorem C9_witness :
    storeGet [[("filename", pys "f")], [("filename", pys "f")],
        [("filename", pys "f")]] 0 = storeGet [[("filename", pys "f")]] 0 ∧
    ([{ id := pys "f_chunk_0", text := pys "aaaaaa\n\nbbb", mdRef := 1,
        chunk_index := 0 },
      { id := pys "f_chunk_1", text := pys "bbb\n\nc", mdRef := 2,
        chunk_index := 1 }].map ChunkRef.mdRef).Pairwise (· ≠ ·) :=
  ⟨(C9_theorem 10 5 (pys "aaaaaa\n\nbbb\n\nc") 0 [[("filename", pys "f")]]
      [[("filename", pys "f")], [("filename", pys "f")], [("filename", pys "f")]]
      [{ id := pys "f_chunk_0", text := pys "aaaaaa\n\nbbb", mdRef := 1,
         chunk_index := 0 },
       { id := pys "f_chunk_1", text := pys "bbb\n\nc", mdRef := 2,
         chunk_index := 1 }] (by decide) rfl).1,
   (C9_theorem 10 5 (pys "aaaaaa\n\nbbb\n\nc") 0 [[("filename", pys "f")]]
      [[("filename", pys "f")], [("filename", pys "f")], [("filename", pys "f")]]
      [{ id := pys "f_chunk_0", text := pys "aaaaaa\n\nbbb", mdRef := 1,
         chunk_index := 0 },
       { id := pys "f_chunk_1", text := pys "bbb\n\nc", mdRef := 2,
         chunk_index := 1 }] (by decide) rfl).2.2.1⟩

/-! ## Claim C7 -/

/-- Claim C7: `generate_response` never raises — it is a total function of
its oracles and on each path returns a well-formed result: zero retrieval
results give the fixed apologetic message with empty sources and citations; a
generation-service failure gives a result whose `response` is the non-empty
error explanation with empty sources and citations; and a citation-formatting
failure after a successful completion only degrades `citations` to the empty
string, leaving the answer and sources intact. -/
theorem C7_theorem (query : PyStr) (so : Except String (List Doc))
    (cF : PyStr → PyStr → Except String PyStr)
    (zF : List Dict → Except String PyStr) :
    (search_relevant_documents so = [] →
      generate_response query so cF zF =
        [("response", .s (pys "Omlouvám se, ale nenašel jsem relevantní informace v dostupných dokumentech o transformativním přístupu ke konfliktům.")),
         ("sources", .srcs []), ("citations", .s [])]) ∧
    (∀ e, search_relevant_documents so ≠ [] →
      cF (contextOf (search_relevant_documents so)) query = .error e →
      generate_response query so cF zF =
        [("response", .s (pys "Chyba při generování odpovědi: " ++ pys e)),
         ("sources", .srcs []), ("citations", .s [])] ∧
      pys "Chyba při generování odpovědi: " ++ pys e ≠ []) ∧
    (∀ t e, search_relevant_documents so ≠ [] →
      cF (contextOf (search_relevant_documents so)) query = .ok t →
      zF ((search_relevant_documents so).map Doc.metadata) = .error e →
      rGet (generate_response query so cF zF) "citations" = some (.s []) ∧
      rGet (generate_response query so cF zF) "response" = some (.s t) ∧
      rGet (generate_response query so cF zF) "sources" =
        some (.srcs ((search_relevant_documents so).map Doc.metadata))) := by
  refine ⟨?_, ?_, ?_⟩
  · intro hd
    unfold generate_response
    rw [if_pos hd]
  · intro e hne hcf
    unfold generate_response
    rw [if_neg hne]
    simp only [hcf]
    refine ⟨trivial, ?_⟩
    intro hh
    exact absurd (List.append_eq_nil.mp hh).1 (by decide)
  · intro t e hne hcf hzf
    unfold generate_response
    rw [if_neg hne]
    simp only [hcf, hzf]
    exact ⟨rfl, rfl, rfl⟩

/-- Claim C7, witness: the three paths evaluated on concrete oracles — empty
retrieval, a failing completion, and a failing citation formatter after a
successful completion. -/
theorem C7_witness :
    generate_response (pys "q") (.ok []) (fun _ _ => .ok (pys "a"))
        (fun _ => .ok []) =
      [("response", .s (pys "Omlouvám se, ale nenašel jsem relevantní informace v dostupných dokumentech o transformativním přístupu ke konfliktům.")),
       ("sources", .srcs []), ("citations", .s [])] ∧
    generate_response (pys "q") (.ok [{ page_content := pys "body", metadata := [] }])
        (fun _ _ => .error "boom") (fun _ => .ok []) =
      [("response", .s (pys "Chyba při generování odpovědi: " ++ pys "boom")),
       ("sources", .srcs []), ("citations", .s [])] ∧
    rGet (generate_response (pys "q")
        (.ok [{ page_content := pys "body", metadata := [] }])
        (fun _ _ => .ok (pys "ans")) (fun _ => .error "cite")) "citations" =
      some (.s []) :=
  ⟨(C7_theorem (pys "q") (.ok []) (fun _ _ => .ok (pys "a"))
      (fun _ => .ok [])).1 rfl,
   ((C7_theorem (pys "q") (.ok [{ page_content := pys "body", metadata := [] }])
      (fun _ _ => .error "boom") (fun _ => .ok [])).2.1 "boom"
      (by decide) rfl).1,
   ((C7_theorem (pys "q") (.ok [{ page_content := pys "body", metadata := [] }])
      (fun _ _ => .ok (pys "ans")) (fun _ => .error "cite")).2.2 (pys "ans")
      "cite" (by decide) rfl rfl).1⟩

/-! ## Claim C10 -/

/-- Claim C10: every result dict of `generate_response` — on the no-match,
successful and caught-failure paths alike — has the keys `response`,
`sources` and `citations`; the key `num_sources` is present exactly on the
successful-generation path (nonempty retrieval and a completion that
returned). -/
theorem C10_theorem (query : PyStr) (so : Except String (List Doc))
    (cF : PyStr → PyStr → Except String PyStr)
    (zF : List Dict → Except String PyStr) :
    (rGet (generate_response query so cF zF) "response").isSome = true ∧
    (rGet (generate_response query so cF zF) "sources").isSome = true ∧
    (rGet (generate_response query so cF zF) "citations").isSome = true ∧
    ((rGet (generate_response query so cF zF) "num_sources").isSome = true ↔
      search_relevant_documents so ≠ [] ∧
      ∃ t, cF (contextOf (search_relevant_documents so)) query = .ok t) := by
  by_cases hd : search_relevant_documents so = []
  · unfold generate_response
    rw [if_pos hd]
    refine ⟨rfl, rfl, rfl, Iff.intro (fun h => ?_) (fun h => ?_)⟩
    · simp [rGet] at h
    · exact absurd hd h.1
  · unfold generate_response
    rw [if_neg hd]
    rcases hcf : cF (contextOf (search_relevant_documents so)) query with e | t
    · simp only [hcf]
      refine ⟨rfl, rfl, rfl, Iff.intro (fun h => ?_) (fun h => ?_)⟩
      · simp [rGet] at h
      · obtain ⟨t, ht⟩ := h.2
        exact absurd ht (by simp)
    · simp only [hcf]
      exact ⟨rfl, rfl, rfl,
        Iff.intro (fun _ => ⟨hd, t, rfl⟩) (fun _ => rfl)⟩

/-- Claim C10, witness: key presence on the no-match path and presence of
`num_sources` on a successful path, at concrete oracles. -/
theorem C10_witness :
    (rGet (generate_response (pys "q") (.ok []) (fun _ _ => .ok (pys "a"))
      (fun _ => .ok [])) "response").isSome = true ∧
    ((rGet (generate_response (pys "q")
        (.ok [{ page_content := pys "body", metadata := [] }])
        (fun _ _ => .ok (pys "a"))
        (fun _ => .ok [])) "num_sources").isSome = true ↔
      search_relevant_documents
          (.ok [{ page_content := pys "body", metadata := [] }]) ≠ [] ∧
      ∃ t, (fun (_ _ : PyStr) => (.ok (pys "a") : Except String PyStr))
          (contextOf (search_relevant_documents
            (.ok [{ page_content := pys "body", metadata := [] }]))) (pys "q") =
        .ok t) :=
  ⟨(C10_theorem (pys "q") (.ok []) (fun _ _ => .ok (pys "a"))
      (fun _ => .ok [])).1,
   (C10_theorem (pys "q") (.ok [{ page_content := pys "body", metadata := [] }])
      (fun _ _ => .ok (pys "a")) (fun _ => .ok [])).2.2.2⟩

/-! ## Claim C4 -/

theorem uniqueCitations_foldl_eq :
    ∀ (sources : List Dict) (dacc : List Dict),
      sources.foldl
        (fun acc source =>
          let filename := pyGetD source "filename" (pys "Unknown")
          if (acc.map Prod.fst).contains filename then acc
          else acc ++ [(filename, generate_reference_citation source)])
        (dacc.map citeEntry) =
      (sources.foldl
        (fun acc s =>
          if (acc.map fun t => pyGetD t "filename" (pys "Unknown")).contains
              (pyGetD s "filename" (pys "Unknown")) then acc
          else acc ++ [s]) dacc).map citeEntry := by
  intro sources
  induction sources with
  | nil => intro dacc; rfl
  | cons s sources ih =>
    intro dacc
    simp only [List.foldl_cons]
    have hkeys : (dacc.map citeEntry).map Prod.fst =
        dacc.map fun t => pyGetD t "filename" (pys "Unknown") := by
      rw [List.map_map]
      rfl
    by_cases hc : ((dacc.map fun t => pyGetD t "filename" (pys "Unknown")).contains
        (pyGetD s "filename" (pys "Unknown"))) = true
    · rw [show ((dacc.map citeEntry).map Prod.fst).contains
          (pyGetD s "filename" (pys "Unknown")) = true by rw [hkeys]; exact hc]
      rw [if_pos rfl, if_pos hc]
      exact ih dacc
    · have hc' : ((dacc.map citeEntry).map Prod.fst).contains
          (pyGetD s "filename" (pys "Unknown")) = false := by
        rw [hkeys]
        exact Bool.eq_false_iff.mpr hc
      rw [hc']
      rw [if_neg (by exact fun hh => nomatch hh), if_neg hc]
      have happ : dacc.map citeEntry ++
          [(pyGetD s "filename" (pys "Unknown"), generate_reference_citation s)] =
          (dacc ++ [s]).map citeEntry := by
        rw [List.map_append]
        rfl
      rw [happ]
      exact ih (dacc ++ [s])

theorem uniqueCitations_eq_dedup (sources : List Dict) :
    uniqueCitations sources = (specDedupByFilename sources).map citeEntry := by
  unfold uniqueCitations specDedupByFilename
  have h := uniqueCitations_foldl_eq sources []
  simpa using h

/-- Claim C4: `format_citations_for_response` equals the spec-side renderer
that deduplicates by filename keeping first-seen order and numbers one line
per survivor under the fixed header; it returns the empty string exactly for
an empty input; two sources sharing `filename="X.pdf"` yield exactly one
numbered entry; and sources missing every key render with the sentinel
defaults instead of failing. -/
theorem C4_theorem (sources : List Dict) :
    format_citations_for_response sources = spec_format_citations sources ∧
    (format_citations_for_response sources = [] ↔ sources = []) ∧
    format_citations_for_response
      [[("filename", pys "X.pdf"), ("author", pys "Bush"), ("year", pys "2005")],
       [("filename", pys "X.pdf"), ("author", pys "Folger")]] =
      pys "\n\n**Použité zdroje:**\n1. Bush (2005). Untitled.\n" ∧
    format_citations_for_response [[]] =
      pys "\n\n**Použité zdroje:**\n1. Unknown Author (n.d.). Untitled.\n" := by
  refine ⟨?_, ?_, by decide, by decide⟩
  · unfold format_citations_for_response spec_format_citations
    by_cases hs : sources = []
    · rw [if_pos hs, if_pos hs]
    · rw [if_neg hs, if_neg hs]
      rw [uniqueCitations_eq_dedup, List.enum_map, List.map_map]
      rfl
  · constructor
    · intro h
      by_cases hs : sources = []
      · exact hs
      · unfold format_citations_for_response at h
        rw [if_neg hs] at h
        have : pys "\n\n**Použité zdroje:**\n" = [] :=
          (List.append_eq_nil.mp h).1
        exact absurd this (by decide)
    · intro h
      subst h
      rfl

/-- Claim C4, witness: the equality with the spec-side renderer and the
empty-input behaviour, evaluated at a concrete one-source list. -/
theorem C4_witness :
    format_citations_for_response [[("author", pys "Bush")]] =
      spec_format_citations [[("author", pys "Bush")]] ∧
    format_citations_for_response [] = [] :=
  ⟨(C4_theorem [[("author", pys "Bush")]]).1,
   (C4_theorem []).2.1.mpr rfl⟩

/-! ## Claim C8 -/

/-- Claim C8, counterexample.  For `"A,B,C.pdf"` the stripped name `"A,B,C"`
contains a comma and no underscore; the claim says the title should be
everything after the first comma, trimmed — `"B,C"` — but the code takes
`parts[1]` of `name.split(',')`, the field between the first and second
commas, so the title is `"B"`. -/
theorem C8_counterexample :
    pyGetOpt (extract_metadata_from_filename (pys "A,B,C.pdf")) "title" =
      some (pys "B") ∧
    pyStrip (pys "B,C") = pys "B,C" ∧
    ¬pyGetOpt (extract_metadata_from_filename (pys "A,B,C.pdf")) "title" =
      some (pyStrip (pys "B,C")) := by
  refine ⟨rfl, rfl, ?_⟩
  decide

/-- Claim C8, amended: for every filename whose extension-stripped name
contains a comma and no underscore, `extract_metadata_from_filename` splits
the name on commas and sets `author` to the trimmed field before the first
comma and `title` to the trimmed field between the first and second commas
(for a name with a single comma this is everything after it; text after a
second comma is dropped). -/
theorem C8_theorem (filename a b : PyStr) (rest : List PyStr)
    (hcomma : ',' ∈ replacePdf filename) (hund : '_' ∉ replacePdf filename)
    (hparts : pySplitChar ',' (replacePdf filename) = a :: b :: rest) :
    pyGetOpt (extract_metadata_from_filename filename) "author" =
      some (pyStrip a) ∧
    pyGetOpt (extract_metadata_from_filename filename) "title" =
      some (pyStrip b) := by
  unfold extract_metadata_from_filename
  simp only [if_neg hund, if_pos (And.intro hcomma hund), hparts]
  rw [if_pos (by simp)]
  simp only [List.getD_cons_zero, List.getD_cons_succ]
  rcases hy : yearSearch (replacePdf filename) with _ | y
  · constructor
    · rw [pyGetOpt_pySet_ne _ _ (by decide), pyGetOpt_pySet_same]
    · rw [pyGetOpt_pySet_same]
  · constructor
    · rw [pyGetOpt_pySet_ne _ _ (by decide), pyGetOpt_pySet_ne _ _ (by decide),
        pyGetOpt_pySet_same]
    · rw [pyGetOpt_pySet_ne _ _ (by decide), pyGetOpt_pySet_same]

/-- Claim C8, witness: the amended statement evaluated on
`"Bush, Folger and friends.pdf"`, whose stripped name has one comma. -/
theorem C8_witness :
    pyGetOpt (extract_metadata_from_filename (pys "Bush, Folger and friends.pdf"))
      "author" = some (pyStrip (pys "Bush")) ∧
    pyGetOpt (extract_metadata_from_filename (pys "Bush, Folger and friends.pdf"))
      "title" = some (pyStrip (pys " Folger and friends")) :=
  C8_theorem (pys "Bush, Folger and friends.pdf") (pys "Bush")
    (pys " Folger and friends") [] (by decide) (by decide) (by decide)

/-- Claim C3, witness: a whitespace-only text yields `.ok []`, and the second
chunk of the C1 example has index 1 and id `"f_chunk_1"`. -/
theorem C3_witness :
    chunk_text 10 5 (pys " \n ") [("filename", pys "f")] = .ok [] ∧
    (([{ id := pys "f_chunk_0", text := pys "aaaaaa\n\nbbb",
         metadata := [("filename", pys "f")], chunk_index := 0 },
       { id := pys "f_chunk_1", text := pys "bbb\n\nc",
         metadata := [("filename", pys "f")], chunk_index := 1 }] : List Chunk).get
      ⟨1, by decide⟩).chunk_index = 1 := by
  constructor
  · exact (C3_theorem 10 5 (pys " \n ") [("filename", pys "f")]).1 (by decide)
  · exact ((C3_theorem 10 5 (pys "aaaaaa\n\nbbb\n\nc") [("filename", pys "f")]).2
      _ rfl 1 (by decide)).1

end RagApp
